import Mathlib

set_option maxHeartbeats 1000000
set_option maxRecDepth 100000

namespace OptPoll

/-- Model of a loosely typed Python value as found in the JSON payloads:
absent or null (`vnone`), a number (`vnum`), or a string (`vstr`). -/
inductive PyVal where
  | vnone : PyVal
  | vnum (q : ℚ) : PyVal
  | vstr (s : String) : PyVal
  deriving DecidableEq

/-- Python truthiness of a `PyVal`: `None`, `0` and `""` are falsy. -/
def pyTruthy : PyVal → Bool
  | PyVal.vnone => false
  | PyVal.vnum q => decide (q ≠ 0)
  | PyVal.vstr s => decide (s ≠ "")

/-- Python `a or b` on loosely typed values: `a` when truthy, otherwise `b`. -/
def pyOrV (a b : PyVal) : PyVal := if pyTruthy a then a else b

/-- Truthiness of an optional string (`None` and the empty string are falsy). -/
def strTruthy : Option String → Bool
  | none => false
  | some s => decide (s ≠ "")

/-- Python `a or b` on optional strings. -/
def pyOrS (a b : Option String) : Option String := if strTruthy a then a else b

/-- Numeric value of a list of decimal digit characters. -/
def digitsToNat (cs : List Char) : ℕ := cs.foldl (fun a c => a * 10 + (c.toNat - 48)) 0

/-- Model of Python `float(...)` applied to the text of a plain decimal
literal: digits and at most one decimal point.  Exponent forms and the special
words inf and nan never occur in this program's data and are not modelled;
on them the model fails like on any other unparsable string. -/
def parseFloatChars (cs : List Char) : Option ℚ :=
  if cs ≠ [] ∧ cs.all (fun c => c.isDigit || c = '.') ∧ cs.count '.' ≤ 1 ∧ cs.any Char.isDigit then
    some ((digitsToNat (cs.takeWhile (fun c => c ≠ '.')) : ℚ) +
      (digitsToNat ((cs.dropWhile (fun c => c ≠ '.')).drop 1) : ℚ) /
        (10 : ℚ) ^ ((cs.dropWhile (fun c => c ≠ '.')).drop 1).length)
  else none

/-- Python `float` on a character list, with an optional leading sign. -/
def parseFloatL (cs : List Char) : Option ℚ :=
  match cs with
  | '-' :: rest => (parseFloatChars rest).map (fun q => -q)
  | '+' :: rest => parseFloatChars rest
  | _ => parseFloatChars cs

/-- Python `float` on a string. -/
def parseFloat? (s : String) : Option ℚ := parseFloatL s.toList

/-- Python `float(v)` on a `PyVal`: numbers pass through, strings are parsed,
`None` raises (modelled as `none`). -/
def pyFloat : PyVal → Option ℚ
  | PyVal.vnone => none
  | PyVal.vnum q => some q
  | PyVal.vstr s => parseFloat? s

/-- ASCII case lowering; `str.lower()` restricted to the ASCII data of this
program (the kernel-reducible core of `Char.toLower`). -/
def charLower (c : Char) : Char :=
  if 65 ≤ c.toNat ∧ c.toNat ≤ 90 then Char.ofNat (c.toNat + 32) else c

/-- Python `s.lower()` as a character list. -/
def lowerL (s : String) : List Char := s.toList.map charLower

/-- Python `needle in hay` on character lists (substring containment). -/
def containsSub (needle : List Char) : List Char → Bool
  | [] => needle.isEmpty
  | c :: t => needle.isPrefixOf (c :: t) || containsSub needle t

inductive Side where
  | ce : Side
  | pe : Side
  deriving DecidableEq

/-- Side classification of a trading symbol, translated from the test
used at lines 296 and 237 of the source:
ce when " ce" occurs in the lowercased symbol, or it ends with "ce", or
"call" occurs in it; otherwise pe by the analogous test; otherwise none. -/
def sideOf (ts : String) : Option Side :=
  let tsl := lowerL ts
  if containsSub (" ce".toList) tsl || ("ce".toList).isSuffixOf tsl ||
      containsSub ("call".toList) tsl then some Side.ce
  else if containsSub (" pe".toList) tsl || ("pe".toList).isSuffixOf tsl ||
      containsSub ("put".toList) tsl then some Side.pe
  else none

/-- An instrument row as consumed by `select_window_keys` and
`build_option_chain_from_instruments`: exactly the dictionary fields the code
reads.  A `none` / `vnone` field models an absent key (`dict.get` gives None). -/
structure Row where
  strike_price : PyVal := PyVal.vnone
  strike : PyVal := PyVal.vnone
  strikePrice : PyVal := PyVal.vnone
  instrument_key : Option String := none
  instrumentKey : Option String := none
  instrumentToken : Option String := none
  instrument_token : Option String := none
  tradingsymbol : Option String := none
  trading_symbol : Option String := none
  symbol : Option String := none
  deriving DecidableEq

/-- A quote payload: the alias fields read by the assembler together with the
identifier fields read by the fetcher when folding response items into the map. -/
structure Quote where
  last_traded_price : PyVal := PyVal.vnone
  ltp : PyVal := PyVal.vnone
  lastPrice : PyVal := PyVal.vnone
  open_interest : PyVal := PyVal.vnone
  oi : PyVal := PyVal.vnone
  openInterest : PyVal := PyVal.vnone
  iv : PyVal := PyVal.vnone
  implied_volatility : PyVal := PyVal.vnone
  IV : PyVal := PyVal.vnone
  instrument_key : Option String := none
  instrumentKey : Option String := none
  instrument_token : Option String := none
  deriving DecidableEq

/-- Line 295/218: the trading symbol alias chain ending in `or ""`. -/
def tsOf (r : Row) : String := (pyOrS (pyOrS r.tradingsymbol r.trading_symbol) r.symbol).getD ""

/-- Line 294: the identifier alias chain of `select_window_keys`. -/
def swkIk (r : Row) : Option String :=
  pyOrS (pyOrS r.instrument_key r.instrumentToken) r.instrument_token

/-- Line 217: the identifier alias chain of the assembler (four aliases). -/
def asmIk (r : Row) : Option String :=
  pyOrS (pyOrS (pyOrS r.instrument_key r.instrumentKey) r.instrumentToken) r.instrument_token

/-- Line 291: `float(r.get("strike_price") or r.get("strike") or 0)`;
`none` models the conversion raising, which makes the loop skip the row. -/
def swkStrike (r : Row) : Option ℚ :=
  pyFloat (pyOrV (pyOrV r.strike_price r.strike) (PyVal.vnum 0))

/-- Helper for Python `str.split()`: accumulate the current token reversed. -/
def splitWsAux (cur : List Char) : List Char → List (List Char)
  | [] => if cur.isEmpty then [] else [cur.reverse]
  | c :: rest =>
      if c.isWhitespace then
        (if cur.isEmpty then splitWsAux [] rest else cur.reverse :: splitWsAux [] rest)
      else splitWsAux (c :: cur) rest

/-- Python `str.split()`: split on whitespace, discarding empty pieces. -/
def pySplitWs (s : String) : List (List Char) := splitWsAux [] s.toList

/-- Remove the first occurrence of a dot, as `p.replace('.', '', 1)` does. -/
def removeFirstDot : List Char → List Char
  | [] => []
  | c :: cs => if c = '.' then cs else c :: removeFirstDot cs

/-- Line 225: `p.replace('.', '', 1).isdigit()`. -/
def isNumToken (p : List Char) : Bool :=
  !(removeFirstDot p).isEmpty && (removeFirstDot p).all Char.isDigit

/-- Lines 224-226: the loop `for p in parts: if ...: found = p` keeps the
last matching token. -/
def lastNumToken (parts : List (List Char)) : Option (List Char) :=
  parts.foldl (fun acc p => if isNumToken p then some p else acc) none

/-- Strike resolution of the assembler (lines 219-231): the alias chain, the
numeric-token fallback parsed out of the trading symbol when the chain yields
`None`, and the final `float(...)`; `none` models the `except: continue`. -/
def asmStrike (r : Row) : Option ℚ :=
  match pyOrV (pyOrV r.strike_price r.strike) r.strikePrice with
  | PyVal.vnone =>
      match lastNumToken (pySplitWs (tsOf r)) with
      | some p => parseFloatL p
      | none => none
  | PyVal.vnum q => some q
  | PyVal.vstr s => parseFloat? s

/-- Line 233: the last-price alias chain of the assembler. -/
def extractLtp (q : Quote) : PyVal := pyOrV (pyOrV q.last_traded_price q.ltp) q.lastPrice

/-- Line 234: the open-interest alias chain of the assembler. -/
def extractOi (q : Quote) : PyVal := pyOrV (pyOrV q.open_interest q.oi) q.openInterest

/-- Line 235: the implied-volatility alias chain of the assembler. -/
def extractIv (q : Quote) : PyVal := pyOrV (pyOrV q.iv q.implied_volatility) q.IV

/-- Normalization of one Python slice bound against a list length. -/
def sliceBound (n i : ℤ) : ℕ := (if i < 0 then max (n + i) 0 else min i n).toNat

/-- Python list slicing `l[a:b]` (step 1), including negative-index wrap. -/
def pySlice {α : Type _} (l : List α) (a b : ℤ) : List α :=
  (l.drop (sliceBound (l.length : ℤ) a)).take
    (sliceBound (l.length : ℤ) b - sliceBound (l.length : ℤ) a)

/-- Fuel-driven chunking; with `fuel ≥ l.length` and `n ≥ 1` this yields the
slices `l[i:i+n]` for `i = 0, n, 2n, ...` produced by `chunk_list`. -/
def chunksAux {α : Type _} (n : ℕ) : ℕ → List α → List (List α)
  | 0, _ => []
  | _, [] => []
  | fuel + 1, x :: xs => (x :: xs).take n :: chunksAux n fuel ((x :: xs).drop n)

/-- Source `chunk_list(lst, n)` (lines 161-163).  `range(0, len(lst), 0)` raises
ValueError when the generator is first iterated (`Except.error`); a negative
step yields no indices at all; a positive step yields the successive slices. -/
def chunk_list {α : Type _} (l : List α) (n : ℤ) : Except Unit (List (List α)) :=
  if n = 0 then Except.error ()
  else if n < 0 then Except.ok []
  else Except.ok (chunksAux n.toNat l.length l)

/-- A successful response's parsed shape after the `data` unwrapping of
line 192: a list of items, a single object, or anything else. -/
inductive Body where
  | arr (items : List Quote) : Body
  | obj (item : Quote) : Body
  | other : Body
  deriving DecidableEq

/-- One simulated HTTP outcome for a batch request attempt: a 429 with the
optional Retry-After header text, a raised RequestException (timeouts and
non-2xx statuses via `raise_for_status`), or a parsed successful body. -/
inductive Resp where
  | rate (retryAfter : Option String) : Resp
  | fail : Resp
  | ok (body : Body) : Resp
  deriving DecidableEq

/-- The identifier-to-quote mapping built by the fetcher (a Python dict,
modelled as an association list with in-place overwrite). -/
abbrev QuoteMap := List (String × Quote)

/-- Assignment `out[key] = item`: overwrite in place or append a new binding. -/
def upsert (m : QuoteMap) (k : String) (v : Quote) : QuoteMap :=
  match m with
  | [] => [(k, v)]
  | (k1, v1) :: rest => if k1 = k then (k, v) :: rest else (k1, v1) :: upsert rest k v

/-- Dictionary lookup in the quote map. -/
def lookupQ (m : QuoteMap) (k : String) : Option Quote :=
  (m.find? (fun p => p.1 == k)).map Prod.snd

/-- Line 195: `item.get("instrument_key") or item.get("instrumentKey") or
item.get("instrument_token")`. -/
def itemKeyArr (q : Quote) : Option String :=
  pyOrS (pyOrS q.instrument_key q.instrumentKey) q.instrument_token

/-- Line 199: `data.get("instrument_key") or data.get("instrumentKey")`. -/
def itemKeyObj (q : Quote) : Option String := pyOrS q.instrument_key q.instrumentKey

/-- Lines 193-197: `if key: out[key] = item` over the items of a list body. -/
def mergeItems (m : QuoteMap) : List Quote → QuoteMap
  | [] => m
  | it :: rest =>
      mergeItems (match itemKeyArr it with
        | some k => if k = "" then m else upsert m k it
        | none => m) rest

/-- Folding one successful body into the running map (lines 192-201). -/
def mergeBody (m : QuoteMap) : Body → QuoteMap
  | Body.arr items => mergeItems m items
  | Body.obj it =>
      match itemKeyObj it with
      | some k => if k = "" then m else upsert m k it
      | none => m
  | Body.other => m

/-- The truthy identifier (if any) under which a list item is merged. -/
def itemKeyT (it : Quote) : Option String :=
  match itemKeyArr it with
  | some k => if k = "" then none else some k
  | none => none

/-- The truthy identifiers a successful body merges into the map. -/
def bodyKeys : Body → List String
  | Body.arr items => items.filterMap itemKeyT
  | Body.obj it =>
      (match itemKeyObj it with
       | some k => if k = "" then [] else [k]
       | none => [])
  | Body.other => []

/-- Lines 182-186: the wait applied on a 429 is `float(ra)` when the header is
present and parses, otherwise `BASE_DELAY * (2 ** (attempt - 1))`. -/
def rateWait (ra : Option String) (base : ℚ) (attempt : ℕ) : ℚ :=
  match ra with
  | none => base * 2 ^ (attempt - 1)
  | some s =>
      match parseFloat? s with
      | some q => q
      | none => base * 2 ^ (attempt - 1)

/-- The per-batch retry loop `while attempt <= MAX_RETRIES` (lines 175-208),
driven by simulated responses `net attempt`; `fuel` counts the remaining loop
iterations (`maxRetries + 1 - attempt`).  Returns the updated quote map with
the number of attempts made, the backoff waits slept, and whether the batch
succeeded; falling off the loop is the `while ... else` path of line 209. -/
def batchGo (net : ℕ → Resp) (base : ℚ) (m : QuoteMap) :
    ℕ → ℕ → ℕ → List ℚ → QuoteMap × (ℕ × List ℚ × Bool)
  | 0, _, nAtt, ws => (m, (nAtt, ws, false))
  | fuel + 1, attempt, nAtt, ws =>
      match net (attempt + 1) with
      | Resp.rate ra =>
          batchGo net base m fuel (attempt + 1) (nAtt + 1) (ws ++ [rateWait ra base (attempt + 1)])
      | Resp.fail =>
          batchGo net base m fuel (attempt + 1) (nAtt + 1) (ws ++ [base * 2 ^ attempt])
      | Resp.ok body => (mergeBody m body, (nAtt + 1, ws, true))

/-- Observable record of what happened to one batch. -/
structure BatchTrace where
  batch : List String
  attempts : ℕ
  waits : List ℚ
  success : Bool
  deriving DecidableEq

/-- The outer `for batch in chunk_list(...)` loop (line 172), threading the
shared `out` map through the batches and recording one trace per batch. -/
def fetchBatches (net : ℕ → ℕ → Resp) (mr : ℕ) (base : ℚ) :
    List (List String) → ℕ → QuoteMap → QuoteMap × List BatchTrace
  | [], _, m => (m, [])
  | b :: bs, i, m =>
      let r := batchGo (net i) base m (mr + 1) 0 0 []
      let rest := fetchBatches net mr base bs (i + 1) r.1
      (rest.1, { batch := b, attempts := r.2.1, waits := r.2.2.1, success := r.2.2.2 } :: rest.2)

/-- Source `fetch_quotes_for_instrument_keys` (lines 166-211), with the network
modelled by `net b a` = response to attempt `a` (1-based) on batch index `b`
(0-based).  An `Except.error` models an exception escaping to the caller. -/
def fetch_quotes_for_instrument_keys (net : ℕ → ℕ → Resp) (instrument_keys : List String)
    (batchSize : ℤ) (maxRetries : ℕ) (baseDelay : ℚ) : Except Unit (QuoteMap × List BatchTrace) :=
  if instrument_keys.isEmpty then Except.ok ([], [])
  else
    match chunk_list instrument_keys batchSize with
    | Except.error e => Except.error e
    | Except.ok batches => Except.ok (fetchBatches net maxRetries baseDelay batches 0 [])

/-- A strike bucket of `select_window_keys`: at most one call id, one put id. -/
structure SBucket where
  ce : Option String := none
  pe : Option String := none
  deriving DecidableEq

/-- Python `m.setdefault(s, d)` followed by an update `f` of the bucket at `s`,
on an insertion-ordered association list (a Python dict keyed by floats). -/
def assocUpd {β : Type _} (m : List (ℚ × β)) (s : ℚ) (d : β) (f : β → β) : List (ℚ × β) :=
  match m with
  | [] => [(s, f d)]
  | (k, b) :: rest => if k = s then (k, f b) :: rest else (k, b) :: assocUpd rest s d f

/-- Dictionary access `m[s]` with default `d`. -/
def assocFind {β : Type _} (m : List (ℚ × β)) (d : β) (s : ℚ) : β :=
  match m.find? (fun p => p.1 == s) with
  | some p => p.2
  | none => d

/-- Lines 299-302: write the id into the side slot selected by the symbol. -/
def sbUpd (side : Option Side) (ik : Option String) (b : SBucket) : SBucket :=
  match side with
  | some Side.ce => { b with ce := ik }
  | some Side.pe => { b with pe := ik }
  | none => b

/-- One iteration of the row loop of `select_window_keys` (lines 289-302). -/
def swkStep (m : List (ℚ × SBucket)) (r : Row) : List (ℚ × SBucket) :=
  match swkStrike r with
  | none => m
  | some s => assocUpd m s {} (sbUpd (sideOf (tsOf r)) (swkIk r))

/-- The strike map after the row loop. -/
def swkMap (rows : List Row) : List (ℚ × SBucket) := rows.foldl swkStep []

/-- Line 303: `sorted(strike_map.keys())`. -/
def swkStrikes (rows : List Row) : List ℚ :=
  List.insertionSort (fun a b => a ≤ b) ((swkMap rows).map Prod.fst)

/-- Python `min(range(len(l)), key=lambda i: abs(l[i] - a))`: Python's `min` keeps
the first index attaining the minimum key. -/
def argminAux (a : ℚ) : List ℚ → ℕ → ℚ → ℕ → ℕ
  | [], _, _, best => best
  | x :: xs, idx, bv, best =>
      if |x - a| < bv then argminAux a xs (idx + 1) |x - a| idx
      else argminAux a xs (idx + 1) bv best

/-- First index of the strike nearest to `a` (line 309). -/
def argminAbs (l : List ℚ) (a : ℚ) : ℕ :=
  match l with
  | [] => 0
  | x :: xs => argminAux a xs 1 |x - a| 0

/-- Lines 306-309: middle index when no ATM, else nearest-strike index. -/
def centerIdx (strikes : List ℚ) (atm : Option ℚ) : ℕ :=
  match atm with
  | none => strikes.length / 2
  | some a => argminAbs strikes a

/-- The contribution of one bucket slot: the id when it is truthy. -/
def sideIds : Option String → List String
  | some s => if s = "" then [] else [s]
  | none => []

/-- Lines 313-318: call id then put id of a bucket, each kept only if truthy. -/
def bucketIds (b : SBucket) : List String := sideIds b.ce ++ sideIds b.pe

/-- Source `select_window_keys` (lines 287-319). -/
def select_window_keys (rows : List Row) (atm : Option ℚ) (window : ℤ) : List String :=
  let m := swkMap rows
  let strikes := swkStrikes rows
  if strikes.isEmpty then []
  else
    let c : ℤ := centerIdx strikes atm
    let start : ℤ := max 0 (c - window)
    let stop : ℤ := min ((strikes.length : ℤ) - 1) (c + window) + 1
    (pySlice strikes start stop).flatMap (fun s => bucketIds (assocFind m {} s))

/-- The per-poll rotation slice of `poll_once_and_send` (lines 364-377):
slice_size = min(MAX_KEYS_PER_POLL, total), pages = ceil(total / slice_size),
offset = int(t // POLL_INTERVAL) % pages, and the slice `cand[start:end]`
with start = offset * slice_size, end = min(start + slice_size, total). -/
def rotation_slice (cand : List String) (q P t : ℕ) : List String :=
  if cand.length = 0 then []
  else
    let s := min q cand.length
    let pages := (cand.length + s - 1) / s
    let offset := t / P % pages
    let start := offset * s
    (cand.drop start).take (min (start + s) cand.length - start)

/-- One assembled leg (line 239): the info dict stored into a strike entry. -/
structure LegInfo where
  instrument_key : Option String
  trading_symbol : String
  ltp : PyVal
  oi : PyVal
  iv : PyVal
  deriving DecidableEq

/-- One assembled strike entry (line 238). -/
structure ChainRec where
  strike : ℚ
  ce : Option LegInfo := none
  pe : Option LegInfo := none
  deriving DecidableEq

/-- Lines 240-243: store the leg info into the slot selected by the symbol;
an unrecognized side leaves the bucket as `setdefault` created it. -/
def legUpd (side : Option Side) (info : LegInfo) (b : Option LegInfo × Option LegInfo) :
    Option LegInfo × Option LegInfo :=
  match side with
  | some Side.ce => (some info, b.2)
  | some Side.pe => (b.1, some info)
  | none => b

/-- Line 232: `q = quotes_map.get(ik) or {}` (a None id finds nothing). -/
def quoteFor (quotes : QuoteMap) (ik : Option String) : Quote :=
  match ik with
  | none => {}
  | some k =>
      match lookupQ quotes k with
      | some q => q
      | none => {}

/-- One iteration of the assembler row loop (lines 216-243). -/
def chainStep (quotes : QuoteMap) (m : List (ℚ × (Option LegInfo × Option LegInfo))) (r : Row) :
    List (ℚ × (Option LegInfo × Option LegInfo)) :=
  match asmStrike r with
  | none => m
  | some s =>
      let q := quoteFor quotes (asmIk r)
      let info : LegInfo :=
        { instrument_key := asmIk r, trading_symbol := tsOf r,
          ltp := extractLtp q, oi := extractOi q, iv := extractIv q }
      assocUpd m s (none, none) (legUpd (sideOf (tsOf r)) info)

/-- The strike dictionary after the assembler row loop. -/
def chainMap (quotes : QuoteMap) (rows : List Row) :
    List (ℚ × (Option LegInfo × Option LegInfo)) :=
  rows.foldl (chainStep quotes) []

/-- Source `build_option_chain_from_instruments` (lines 214-244). -/
def build_option_chain_from_instruments (rows : List Row) (quotes : QuoteMap) : List ChainRec :=
  (List.insertionSort (fun a b => a ≤ b) ((chainMap quotes rows).map Prod.fst)).map
    (fun k =>
      { strike := k, ce := (assocFind (chainMap quotes rows) (none, none) k).1,
        pe := (assocFind (chainMap quotes rows) (none, none) k).2 })

/-- Spec-side definition, for comparison only, following the spec's words:
the first present, non-null value among the aliases of a logical field. -/
def firstNonNull (l : List PyVal) : PyVal :=
  match l.find? (fun v => decide (v ≠ PyVal.vnone)) with
  | some v => v
  | none => PyVal.vnone

/-- The attempts, waits and success outcome of one batch run from a fresh map;
these three components do not depend on the map threaded through. -/
def traceOf (net1 : ℕ → Resp) (mr : ℕ) (base : ℚ) : ℕ × List ℚ × Bool :=
  (batchGo net1 base [] (mr + 1) 0 0 []).2

/-- Network used by the C1 witness: batch 0 succeeds with one item keyed k1,
batch 1 is rate limited on every attempt. -/
def netW1 : ℕ → ℕ → Resp := fun b _ =>
  match b with
  | 0 => Resp.ok (Body.arr [{ instrument_key := some "k1" }])
  | _ => Resp.rate (some "7")

/-- The Retry-After header of a response, when it is a 429. -/
def raOf : Resp → Option String
  | Resp.rate s => s
  | Resp.fail => none
  | Resp.ok _ => none

/-- The waits produced by attempts `attempt+1 .. attempt+j` when each of them
is answered with a 429. -/
def rateWaits (net : ℕ → Resp) (base : ℚ) (attempt j : ℕ) : List ℚ :=
  (List.range j).map (fun i => rateWait (raOf (net (attempt + i + 1))) base (attempt + i + 1))

/-- Network used by the C9 witness: every attempt on every batch is a 429
carrying Retry-After 7 on attempt 1 and an unparsable header afterwards. -/
def netW2 : ℕ → ℕ → Resp := fun _ a =>
  match a with
  | 1 => Resp.rate (some "7")
  | _ => Resp.rate (some "xx")

/-- Where the slot contents of a strike bucket can come from: a row of the
given list with matching resolved strike and side. -/
def sbOrigin (rows : List Row) (k : ℚ) (b : SBucket) : Prop :=
  (b.ce = none ∨ ∃ r ∈ rows, swkStrike r = some k ∧ sideOf (tsOf r) = some Side.ce ∧ swkIk r = b.ce) ∧
  (b.pe = none ∨ ∃ r ∈ rows, swkStrike r = some k ∧ sideOf (tsOf r) = some Side.pe ∧ swkIk r = b.pe)

/-- Example row: strike 100 call with id A. -/
def exRow1 : Row :=
  { strike_price := PyVal.vnum 100, instrument_key := some "A", tradingsymbol := some "x ce" }

/-- Example row with no strike fields at all (truthiness falls through to 0). -/
def exRowNoStrike : Row := { tradingsymbol := some "a ce", instrument_key := some "Z" }

/-- Example row at strike 5. -/
def exRow5W : Row :=
  { strike_price := PyVal.vnum 5, tradingsymbol := some "a ce", instrument_key := some "W" }

/-- Two call rows at different strikes sharing the same id X. -/
def exRowX1 : Row :=
  { strike_price := PyVal.vnum 100, instrument_key := some "X", tradingsymbol := some "x ce" }

/-- Second call row with the same id X at strike 105. -/
def exRowX2 : Row :=
  { strike_price := PyVal.vnum 105, instrument_key := some "X", tradingsymbol := some "x ce" }

/-- The three-strike example rows of the spec: 100, 105, 110, call and put. -/
def ex3Rows : List Row :=
  [{ strike_price := PyVal.vnum 100, instrument_key := some "C100", tradingsymbol := some "x ce" },
   { strike_price := PyVal.vnum 100, instrument_key := some "P100", tradingsymbol := some "x pe" },
   { strike_price := PyVal.vnum 105, instrument_key := some "C105", tradingsymbol := some "x ce" },
   { strike_price := PyVal.vnum 105, instrument_key := some "P105", tradingsymbol := some "x pe" },
   { strike_price := PyVal.vnum 110, instrument_key := some "C110", tradingsymbol := some "x ce" },
   { strike_price := PyVal.vnum 110, instrument_key := some "P110", tradingsymbol := some "x pe" }]

/-- Five call rows at strikes 1..5 with ids A..E. -/
def exRows5 : List Row :=
  [{ strike_price := PyVal.vnum 1, instrument_key := some "A", tradingsymbol := some "x ce" },
   { strike_price := PyVal.vnum 2, instrument_key := some "B", tradingsymbol := some "x ce" },
   { strike_price := PyVal.vnum 3, instrument_key := some "C", tradingsymbol := some "x ce" },
   { strike_price := PyVal.vnum 4, instrument_key := some "D", tradingsymbol := some "x ce" },
   { strike_price := PyVal.vnum 5, instrument_key := some "E", tradingsymbol := some "x ce" }]

/-- Example call row at strike 100 with id K. -/
def exCe100 : Row :=
  { strike_price := PyVal.vnum 100, tradingsymbol := some "x ce", instrument_key := some "K" }

/-- Example put row at strike 100 with id P. -/
def exPe100 : Row :=
  { strike_price := PyVal.vnum 100, tradingsymbol := some "x pe", instrument_key := some "P" }

/-- Example row at strike 100 whose symbol names no side. -/
def exRowSideless : Row := { strike_price := PyVal.vnum 100, tradingsymbol := some "XYZ" }

/-! ### Lemmas and claim theorems -/

/-! ### Lemmas about chunking -/

lemma chunksAux_nil {α : Type _} (n fuel : ℕ) : chunksAux n fuel ([] : List α) = [] := by
  cases fuel <;> rfl

lemma chunksAux_cons {α : Type _} (n fuel : ℕ) (x : α) (xs : List α) :
    chunksAux n (fuel + 1) (x :: xs) =
      (x :: xs).take n :: chunksAux n fuel ((x :: xs).drop n) := rfl

lemma chunksAux_zero {α : Type _} (n : ℕ) (l : List α) : chunksAux n 0 l = [] := by
  cases l <;> rfl

lemma chunksAux_flatten {α : Type _} (n : ℕ) (hn : 0 < n) :
    ∀ (fuel : ℕ) (l : List α), l.length ≤ fuel → (chunksAux n fuel l).flatten = l := by
  intro fuel
  induction fuel with
  | zero =>
      intro l hl
      have hl0 : l = [] := List.length_eq_zero.mp (Nat.le_zero.mp hl)
      subst hl0; rfl
  | succ fuel ih =>
      intro l hl
      cases l with
      | nil => rfl
      | cons x xs =>
          rw [chunksAux_cons, List.flatten_cons, ih ((x :: xs).drop n) (by
            have hd := List.length_drop n (x :: xs)
            simp only [List.length_cons] at hl hd
            omega), List.take_append_drop]

lemma chunksAux_mem {α : Type _} (n : ℕ) (hn : 0 < n) :
    ∀ (fuel : ℕ) (l : List α) (c : List α),
      c ∈ chunksAux n fuel l → c ≠ [] ∧ c.length ≤ n := by
  intro fuel
  induction fuel with
  | zero => intro l c hc; rw [chunksAux_zero] at hc; cases hc
  | succ fuel ih =>
      intro l c hc
      cases l with
      | nil => rw [chunksAux_nil] at hc; cases hc
      | cons x xs =>
          rw [chunksAux_cons] at hc
          rcases List.mem_cons.mp hc with hc | hc
          · subst hc
            constructor
            · have : ((x :: xs).take n).length = min n (x :: xs).length := List.length_take n _
              intro hnil
              rw [hnil] at this
              simp only [List.length_nil, List.length_cons] at this
              omega
            · have := List.length_take n (x :: xs)
              omega
          · exact ih _ _ hc

lemma chunksAux_get?_length {α : Type _} (n : ℕ) :
    ∀ (fuel : ℕ) (l : List α) (i : ℕ) (c : List α),
      (chunksAux n fuel l).get? i = some c →
      i + 1 < (chunksAux n fuel l).length → c.length = n := by
  intro fuel
  induction fuel with
  | zero => intro l i c hc hi; rw [chunksAux_zero] at hc; cases hc
  | succ fuel ih =>
      intro l i c hc hi
      cases l with
      | nil => rw [chunksAux_nil] at hc; cases hc
      | cons x xs =>
          rw [chunksAux_cons] at hc hi
          cases i with
          | zero =>
              simp only [List.get?_eq_getElem?, List.getElem?_cons_zero, Option.some.injEq] at hc
              subst hc
              have hrest : chunksAux n fuel ((x :: xs).drop n) ≠ [] := by
                intro hr
                simp only [List.length_cons, hr, List.length_nil] at hi
                omega
              have hdrop : (x :: xs).drop n ≠ [] := by
                intro hd
                rw [hd, chunksAux_nil] at hrest
                exact hrest rfl
              have hlen : n < (x :: xs).length := by
                by_contra hle
                exact hdrop (List.drop_eq_nil_of_le (by omega))
              have := List.length_take n (x :: xs)
              omega
          | succ j =>
              simp only [List.get?_eq_getElem?, List.getElem?_cons_succ] at hc
              simp only [List.length_cons, Nat.add_lt_add_iff_right] at hi
              exact ih _ j c (by simpa using hc) hi

lemma chunk_list_pos {α : Type _} (l : List α) (n : ℤ) (hn : 0 < n) :
    chunk_list l n = Except.ok (chunksAux n.toNat l.length l) := by
  unfold chunk_list
  rw [if_neg (by omega), if_neg (by omega)]

/-! ### Lemmas about the retry loop and the batch fold -/

lemma batchGo_snd_indep (net : ℕ → Resp) (base : ℚ) :
    ∀ (fuel attempt nAtt : ℕ) (ws : List ℚ) (m m2 : QuoteMap),
      (batchGo net base m fuel attempt nAtt ws).2 = (batchGo net base m2 fuel attempt nAtt ws).2 := by
  intro fuel
  induction fuel with
  | zero => intro attempt nAtt ws m m2; rfl
  | succ fuel ih =>
      intro attempt nAtt ws m m2
      cases hr : net (attempt + 1) with
      | rate ra => simp only [batchGo, hr]; exact ih _ _ _ m m2
      | fail => simp only [batchGo, hr]; exact ih _ _ _ m m2
      | ok body => simp only [batchGo, hr]

lemma batchGo_attempts_bounds (net : ℕ → Resp) (base : ℚ) (m : QuoteMap) :
    ∀ (fuel attempt nAtt : ℕ) (ws : List ℚ),
      nAtt ≤ (batchGo net base m fuel attempt nAtt ws).2.1 ∧
      (batchGo net base m fuel attempt nAtt ws).2.1 ≤ nAtt + fuel ∧
      (0 < fuel → nAtt < (batchGo net base m fuel attempt nAtt ws).2.1) := by
  intro fuel
  induction fuel with
  | zero => intro attempt nAtt ws; exact ⟨Nat.le_refl _, Nat.le_refl _, by omega⟩
  | succ fuel ih =>
      intro attempt nAtt ws
      cases hr : net (attempt + 1) with
      | rate ra =>
          simp only [batchGo, hr]
          have := ih (attempt + 1) (nAtt + 1) (ws ++ [rateWait ra base (attempt + 1)])
          exact ⟨by omega, by omega, fun _ => by omega⟩
      | fail =>
          simp only [batchGo, hr]
          have := ih (attempt + 1) (nAtt + 1) (ws ++ [base * 2 ^ attempt])
          exact ⟨by omega, by omega, fun _ => by omega⟩
      | ok body => simp only [batchGo, hr]; exact ⟨by omega, by omega, fun _ => by omega⟩

lemma fetchBatches_length (net : ℕ → ℕ → Resp) (mr : ℕ) (base : ℚ) :
    ∀ (bs : List (List String)) (i : ℕ) (m : QuoteMap),
      (fetchBatches net mr base bs i m).2.length = bs.length := by
  intro bs
  induction bs with
  | nil => intro i m; rfl
  | cons b rest ih => intro i m; simp only [fetchBatches, List.length_cons, ih]

lemma fetchBatches_get? (net : ℕ → ℕ → Resp) (mr : ℕ) (base : ℚ) :
    ∀ (bs : List (List String)) (i : ℕ) (m : QuoteMap) (j : ℕ) (b : List String),
      bs.get? j = some b →
      (fetchBatches net mr base bs i m).2.get? j =
        some { batch := b, attempts := (traceOf (net (i + j)) mr base).1,
               waits := (traceOf (net (i + j)) mr base).2.1,
               success := (traceOf (net (i + j)) mr base).2.2 } := by
  intro bs
  induction bs with
  | nil => intro i m j b hj; cases hj
  | cons b0 rest ih =>
      intro i m j b hj
      cases j with
      | zero =>
          simp only [List.get?_eq_getElem?, List.getElem?_cons_zero, Option.some.injEq] at hj
          subst hj
          show some _ = some _
          have hind := batchGo_snd_indep (net i) base (mr + 1) 0 0 [] m []
          simp only [fetchBatches, traceOf, Nat.add_zero]
          rw [hind]
      | succ j =>
          simp only [List.get?_eq_getElem?, List.getElem?_cons_succ] at hj
          simp only [fetchBatches]
          have := ih (i + 1) (batchGo (net i) base m (mr + 1) 0 0 []).1 j b (by
            simpa using hj)
          simpa [Nat.add_assoc, Nat.add_comm 1 j] using this

lemma fetchBatches_map_batch (net : ℕ → ℕ → Resp) (mr : ℕ) (base : ℚ) :
    ∀ (bs : List (List String)) (i : ℕ) (m : QuoteMap),
      (fetchBatches net mr base bs i m).2.map BatchTrace.batch = bs := by
  intro bs
  induction bs with
  | nil => intro i m; rfl
  | cons b rest ih => intro i m; simp only [fetchBatches, List.map_cons, ih]

lemma fetchBatches_mem_attempts (net : ℕ → ℕ → Resp) (mr : ℕ) (base : ℚ) :
    ∀ (bs : List (List String)) (i : ℕ) (m : QuoteMap) (t : BatchTrace),
      t ∈ (fetchBatches net mr base bs i m).2 → 1 ≤ t.attempts ∧ t.attempts ≤ mr + 1 := by
  intro bs
  induction bs with
  | nil => intro i m t ht; cases ht
  | cons b rest ih =>
      intro i m t ht
      rcases List.mem_cons.mp ht with ht | ht
      · subst ht
        have hb := batchGo_attempts_bounds (net i) base m (mr + 1) 0 0 []
        dsimp only
        exact ⟨hb.2.2 (by omega), by have := hb.2.1; omega⟩
      · exact ih _ _ _ ht

lemma fetch_eq_ok (net : ℕ → ℕ → Resp) (keys : List String) (bs : ℤ) (mr : ℕ) (base : ℚ)
    (hbs : 0 < bs) :
    fetch_quotes_for_instrument_keys net keys bs mr base =
      Except.ok (fetchBatches net mr base (chunksAux bs.toNat keys.length keys) 0 []) := by
  cases keys with
  | nil => simp [fetch_quotes_for_instrument_keys, chunksAux_zero, fetchBatches]
  | cons x xs =>
      simp only [fetch_quotes_for_instrument_keys, List.isEmpty_cons,
        chunk_list_pos _ _ hbs, Bool.false_eq_true, if_false]

/-- C8: with a positive batch size, `fetch_quotes_for_instrument_keys`
partitions the identifier list into consecutive batches of `batchSize` in
input order, only the last batch possibly shorter, and issues one outbound
request attempt per batch per try (so between 1 and `maxRetries + 1` requests
per batch); in particular 5 identifiers with batch size 2 give 3 requests of
sizes 2, 2 and 1 when every request succeeds. -/
theorem c8_batch_partition (keys : List String) (bs : ℤ) (hbs : 0 < bs) :
    ∃ cs : List (List String),
      chunk_list keys bs = Except.ok cs ∧
      cs.flatten = keys ∧
      (∀ c ∈ cs, c ≠ [] ∧ c.length ≤ bs.toNat) ∧
      (∀ i c, cs.get? i = some c → i + 1 < cs.length → c.length = bs.toNat) ∧
      (∀ (net : ℕ → ℕ → Resp) (mr : ℕ) (base : ℚ), ∃ m traces,
        fetch_quotes_for_instrument_keys net keys bs mr base = Except.ok (m, traces) ∧
        traces.map BatchTrace.batch = cs ∧
        ∀ t ∈ traces, 1 ≤ t.attempts ∧ t.attempts ≤ mr + 1) ∧
      fetch_quotes_for_instrument_keys (fun _ _ => Resp.ok Body.other)
          ["k1", "k2", "k3", "k4", "k5"] 2 4 2 =
        Except.ok ([], [⟨["k1", "k2"], 1, [], true⟩, ⟨["k3", "k4"], 1, [], true⟩,
          ⟨["k5"], 1, [], true⟩]) := by
  have hn : 0 < bs.toNat := by omega
  refine ⟨chunksAux bs.toNat keys.length keys, chunk_list_pos keys bs hbs,
    chunksAux_flatten bs.toNat hn keys.length keys (Nat.le_refl _),
    fun c hc => chunksAux_mem bs.toNat hn keys.length keys c hc,
    fun i c hc hi => chunksAux_get?_length bs.toNat keys.length keys i c hc hi,
    fun net mr base => ⟨_, _, fetch_eq_ok net keys bs mr base hbs,
      fetchBatches_map_batch net mr base _ 0 [],
      fun t ht => fetchBatches_mem_attempts net mr base _ 0 [] t ht⟩,
    rfl⟩

/-- Witness for C8 at a concrete input. -/
theorem c8_batch_partition_witness :
    (0 : ℤ) < 2 ∧
    (∃ cs : List (List String),
      chunk_list ["k1", "k2", "k3", "k4", "k5"] 2 = Except.ok cs ∧
      cs.flatten = ["k1", "k2", "k3", "k4", "k5"] ∧
      (∀ c ∈ cs, c ≠ [] ∧ c.length ≤ (2 : ℤ).toNat) ∧
      (∀ i c, cs.get? i = some c → i + 1 < cs.length → c.length = (2 : ℤ).toNat) ∧
      (∀ (net : ℕ → ℕ → Resp) (mr : ℕ) (base : ℚ), ∃ m traces,
        fetch_quotes_for_instrument_keys net ["k1", "k2", "k3", "k4", "k5"] 2 mr base =
          Except.ok (m, traces) ∧
        traces.map BatchTrace.batch = cs ∧
        ∀ t ∈ traces, 1 ≤ t.attempts ∧ t.attempts ≤ mr + 1) ∧
      fetch_quotes_for_instrument_keys (fun _ _ => Resp.ok Body.other)
          ["k1", "k2", "k3", "k4", "k5"] 2 4 2 =
        Except.ok ([], [⟨["k1", "k2"], 1, [], true⟩, ⟨["k3", "k4"], 1, [], true⟩,
          ⟨["k5"], 1, [], true⟩])) :=
  ⟨by decide, c8_batch_partition ["k1", "k2", "k3", "k4", "k5"] 2 (by decide)⟩

/-! ### Lookup lemmas for the quote map -/

lemma lookupQ_upsert_ne (k k2 : String) (v : Quote) (h : k2 ≠ k) :
    ∀ m : QuoteMap, lookupQ (upsert m k v) k2 = lookupQ m k2 := by
  have hbe : (k == k2) = false := beq_eq_false_iff_ne.mpr (Ne.symm h)
  intro m
  induction m with
  | nil => simp [upsert, lookupQ, List.find?, hbe]
  | cons p rest ih =>
      rcases p with ⟨k1, v1⟩
      by_cases hk : k1 = k
      · simp [upsert, if_pos hk, lookupQ, List.find?, hbe, hk]
      · simp only [upsert, if_neg hk, lookupQ, List.find?]
        cases hbe1 : (k1 == k2) with
        | true => rfl
        | false => exact ih

lemma lookupQ_mergeItems_notin (k : String) :
    ∀ (items : List Quote) (m : QuoteMap),
      (∀ it ∈ items, itemKeyT it ≠ some k) →
      lookupQ (mergeItems m items) k = lookupQ m k := by
  intro items
  induction items with
  | nil => intro m _; rfl
  | cons it rest ih =>
      intro m h
      have hit := h it (List.mem_cons_self it rest)
      have hrest : ∀ it2 ∈ rest, itemKeyT it2 ≠ some k :=
        fun it2 h2 => h it2 (List.mem_cons_of_mem it h2)
      show lookupQ (mergeItems _ rest) k = lookupQ m k
      rw [ih _ hrest]
      cases h0 : itemKeyArr it with
      | none => simp only [h0]
      | some k0 =>
          simp only [h0]
          by_cases h00 : k0 = ""
          · simp only [if_pos h00]
          · simp only [if_neg h00]
            apply lookupQ_upsert_ne
            intro hkk
            apply hit
            simp [itemKeyT, h0, if_neg h00, hkk]

lemma lookupQ_mergeBody_notin (m : QuoteMap) (body : Body) (k : String)
    (h : k ∉ bodyKeys body) : lookupQ (mergeBody m body) k = lookupQ m k := by
  cases body with
  | arr items =>
      apply lookupQ_mergeItems_notin
      intro it hit hk
      exact h (by
        simp only [bodyKeys, List.mem_filterMap]
        exact ⟨it, hit, hk⟩)
  | obj it =>
      simp only [mergeBody]
      cases h0 : itemKeyObj it with
      | none => rfl
      | some k0 =>
          by_cases h00 : k0 = ""
          · simp only [if_pos h00]
          · simp only [if_neg h00]
            apply lookupQ_upsert_ne
            intro hkk
            apply h
            simp [bodyKeys, h0, if_neg h00, hkk]
  | other => rfl

lemma batchGo_fst_lookup (net : ℕ → Resp) (base : ℚ) (m : QuoteMap) (k : String)
    (hnet : ∀ a body, net a = Resp.ok body → k ∉ bodyKeys body) :
    ∀ (fuel attempt nAtt : ℕ) (ws : List ℚ),
      lookupQ (batchGo net base m fuel attempt nAtt ws).1 k = lookupQ m k := by
  intro fuel
  induction fuel with
  | zero => intro attempt nAtt ws; rfl
  | succ fuel ih =>
      intro attempt nAtt ws
      cases hr : net (attempt + 1) with
      | rate ra => simp only [batchGo, hr]; exact ih _ _ _
      | fail => simp only [batchGo, hr]; exact ih _ _ _
      | ok body =>
          simp only [batchGo, hr]
          exact lookupQ_mergeBody_notin m body k (hnet _ _ hr)

lemma fetchBatches_fst_lookup (net : ℕ → ℕ → Resp) (mr : ℕ) (base : ℚ) (k : String)
    (hnet : ∀ b a body, net b a = Resp.ok body → k ∉ bodyKeys body) :
    ∀ (bs : List (List String)) (i : ℕ) (m : QuoteMap),
      lookupQ (fetchBatches net mr base bs i m).1 k = lookupQ m k := by
  intro bs
  induction bs with
  | nil => intro i m; rfl
  | cons b rest ih =>
      intro i m
      show lookupQ (fetchBatches net mr base rest (i + 1) _).1 k = _
      rw [ih (i + 1) _, batchGo_fst_lookup (net i) base m k (fun a => hnet i a)]

lemma batchGo_all_rate (net : ℕ → Resp) (base : ℚ) (m : QuoteMap)
    (h : ∀ a, ∃ s, net a = Resp.rate s) :
    ∀ (fuel attempt nAtt : ℕ) (ws : List ℚ), ∃ ws2,
      batchGo net base m fuel attempt nAtt ws = (m, (nAtt + fuel, ws2, false)) := by
  intro fuel
  induction fuel with
  | zero => intro attempt nAtt ws; exact ⟨ws, rfl⟩
  | succ fuel ih =>
      intro attempt nAtt ws
      obtain ⟨s, hs⟩ := h (attempt + 1)
      obtain ⟨ws2, hw⟩ := ih (attempt + 1) (nAtt + 1) (ws ++ [rateWait s base (attempt + 1)])
      refine ⟨ws2, ?_⟩
      simp only [batchGo, hs]
      rw [hw, show nAtt + 1 + fuel = nAtt + (fuel + 1) from by omega]

/-- C1: a batch whose every attempt is answered 429 is retried exactly
`maxRetries + 1` times, no exception reaches the caller, the batch's
identifiers stay absent from the returned map (given that no other batch's
successful response carries them), and all other batches are still processed. -/
theorem c1_partial_tolerance
    (net : ℕ → ℕ → Resp) (keys : List String) (bs : ℤ) (mr : ℕ) (base : ℚ)
    (batches : List (List String)) (b : ℕ) (batchB : List String) (k : String)
    (hch : chunk_list keys bs = Except.ok batches)
    (hb : batches.get? b = some batchB)
    (h429 : ∀ a, ∃ s, net b a = Resp.rate s)
    (_hk : k ∈ batchB)
    (hother : ∀ b2 a body, net b2 a = Resp.ok body → k ∉ bodyKeys body) :
    ∃ m traces ws,
      fetch_quotes_for_instrument_keys net keys bs mr base = Except.ok (m, traces) ∧
      traces.length = batches.length ∧
      traces.get? b = some ⟨batchB, mr + 1, ws, false⟩ ∧
      lookupQ m k = none := by
  have hbs : 0 < bs := by
    rcases lt_trichotomy bs 0 with hneg | hzero | hpos
    · exfalso
      unfold chunk_list at hch
      rw [if_neg (by omega), if_pos hneg] at hch
      cases hch
      cases hb
    · exfalso
      unfold chunk_list at hch
      rw [if_pos hzero] at hch
      cases hch
    · exact hpos
  rw [chunk_list_pos keys bs hbs] at hch
  have hbatches : batches = chunksAux bs.toNat keys.length keys := by
    cases hch; rfl
  subst hbatches
  obtain ⟨ws2, hgo⟩ := batchGo_all_rate (net b) base [] h429 (mr + 1) 0 0 []
  refine ⟨_, _, ws2, fetch_eq_ok net keys bs mr base hbs, fetchBatches_length _ _ _ _ 0 [], ?_, ?_⟩
  · rw [fetchBatches_get? net mr base _ 0 [] b batchB hb]
    have : traceOf (net (0 + b)) mr base = (mr + 1, ws2, false) := by
      rw [show 0 + b = b from by omega]
      unfold traceOf
      rw [hgo]
      simp
    rw [this]
  · rw [fetchBatches_fst_lookup net mr base k hother _ 0 []]
    rfl

/-- Witness for C1 at a concrete input. -/
theorem c1_partial_tolerance_witness :
    (chunk_list ["k1", "k2", "k3"] 2 = Except.ok [["k1", "k2"], ["k3"]]) ∧
    ([["k1", "k2"], ["k3"]].get? 1 = some ["k3"]) ∧
    ("k3" ∈ ["k3"]) ∧
    (∃ m traces ws,
      fetch_quotes_for_instrument_keys netW1 ["k1", "k2", "k3"] 2 4 2 = Except.ok (m, traces) ∧
      traces.length = [["k1", "k2"], ["k3"]].length ∧
      traces.get? 1 = some ⟨["k3"], 4 + 1, ws, false⟩ ∧
      lookupQ m "k3" = none) := by
  refine ⟨rfl, rfl, by decide, ?_⟩
  apply c1_partial_tolerance netW1 ["k1", "k2", "k3"] 2 4 2 [["k1", "k2"], ["k3"]] 1 ["k3"] "k3"
    rfl rfl (fun a => ⟨some "7", rfl⟩) (by decide)
  intro b2 a body hbody
  cases b2 with
  | zero =>
      have hb0 : body = Body.arr [{ instrument_key := some "k1" }] := by
        cases hbody
        rfl
      subst hb0
      decide
  | succ b3 => cases hbody

/-! ### The 429 wait (C9) -/

lemma rateWaits_zero (net : ℕ → Resp) (base : ℚ) (attempt : ℕ) :
    rateWaits net base attempt 0 = [] := rfl

lemma rateWaits_succ (net : ℕ → Resp) (base : ℚ) (attempt j : ℕ) :
    rateWaits net base attempt (j + 1) =
      rateWait (raOf (net (attempt + 1))) base (attempt + 1) :: rateWaits net base (attempt + 1) j := by
  unfold rateWaits
  rw [List.range_succ_eq_map, List.map_cons, List.map_map]
  congr 1
  refine List.map_congr_left fun i _ => ?_
  show rateWait (raOf (net (attempt + (i + 1) + 1))) base (attempt + (i + 1) + 1) = _
  rw [show attempt + (i + 1) + 1 = attempt + 1 + i + 1 from by omega]

lemma rateWaits_length (net : ℕ → Resp) (base : ℚ) (attempt j : ℕ) :
    (rateWaits net base attempt j).length = j := by
  unfold rateWaits
  rw [List.length_map, List.length_range]

lemma batchGo_waits_ext (net : ℕ → Resp) (base : ℚ) (m : QuoteMap) :
    ∀ (fuel attempt nAtt : ℕ) (ws : List ℚ), ∃ tail,
      (batchGo net base m fuel attempt nAtt ws).2.2.1 = ws ++ tail := by
  intro fuel
  induction fuel with
  | zero => intro attempt nAtt ws; exact ⟨[], (List.append_nil ws).symm⟩
  | succ fuel ih =>
      intro attempt nAtt ws
      cases hr : net (attempt + 1) with
      | rate ra =>
          obtain ⟨tail, htail⟩ := ih (attempt + 1) (nAtt + 1) (ws ++ [rateWait ra base (attempt + 1)])
          refine ⟨rateWait ra base (attempt + 1) :: tail, ?_⟩
          simp only [batchGo, hr, htail, List.append_assoc, List.singleton_append]
      | fail =>
          obtain ⟨tail, htail⟩ := ih (attempt + 1) (nAtt + 1) (ws ++ [base * 2 ^ attempt])
          refine ⟨base * 2 ^ attempt :: tail, ?_⟩
          simp only [batchGo, hr, htail, List.append_assoc, List.singleton_append]
      | ok body =>
          refine ⟨[], ?_⟩
          simp only [batchGo, hr, List.append_nil]

lemma batchGo_rates_steps (net : ℕ → Resp) (base : ℚ) (m : QuoteMap) :
    ∀ (j fuel attempt nAtt : ℕ) (ws : List ℚ),
      j ≤ fuel →
      (∀ a, attempt < a → a ≤ attempt + j → ∃ s, net a = Resp.rate s) →
      batchGo net base m fuel attempt nAtt ws =
        batchGo net base m (fuel - j) (attempt + j) (nAtt + j) (ws ++ rateWaits net base attempt j) := by
  intro j
  induction j with
  | zero =>
      intro fuel attempt nAtt ws _ _
      simp [rateWaits_zero]
  | succ j ih =>
      intro fuel attempt nAtt ws hj h
      cases fuel with
      | zero => omega
      | succ fuel =>
          obtain ⟨s, hs⟩ := h (attempt + 1) (by omega) (by omega)
          have hra : rateWait s base (attempt + 1) = rateWait (raOf (net (attempt + 1))) base (attempt + 1) := by
            rw [hs]; rfl
          simp only [batchGo, hs]
          rw [hra, ih fuel (attempt + 1) (nAtt + 1) (ws ++ [rateWait (raOf (net (attempt + 1))) base (attempt + 1)])
            (by omega) (fun a ha1 ha2 => h a (by omega) (by omega))]
          rw [show fuel + 1 - (j + 1) = fuel - j from by omega,
            show attempt + 1 + j = attempt + (j + 1) from by omega,
            show nAtt + 1 + j = nAtt + (j + 1) from by omega,
            rateWaits_succ, List.append_assoc, List.singleton_append]

/-- C9: whenever an attempt on a batch is answered 429, the wait recorded for
that attempt equals the parsed Retry-After value when the header is present
and parses as a number, and `baseDelay * 2 ^ (attempt - 1)` otherwise. -/
theorem c9_retry_after_wait
    (net : ℕ → ℕ → Resp) (keys : List String) (bs : ℤ) (mr : ℕ) (base : ℚ)
    (batches : List (List String)) (b : ℕ) (batchB : List String) (a : ℕ) (raS : Option String)
    (hch : chunk_list keys bs = Except.ok batches)
    (hb : batches.get? b = some batchB)
    (hpre : ∀ a2, 1 ≤ a2 → a2 ≤ a → ∃ s, net b a2 = Resp.rate s)
    (hra : net b a = Resp.rate raS)
    (ha1 : 1 ≤ a) (ha2 : a ≤ mr + 1) :
    ∃ m traces tr,
      fetch_quotes_for_instrument_keys net keys bs mr base = Except.ok (m, traces) ∧
      traces.get? b = some tr ∧
      tr.waits.get? (a - 1) = some ((raS.bind parseFloat?).getD (base * 2 ^ (a - 1))) := by
  have hbs : 0 < bs := by
    rcases lt_trichotomy bs 0 with hneg | hzero | hpos
    · exfalso
      unfold chunk_list at hch
      rw [if_neg (by omega), if_pos hneg] at hch
      cases hch
      cases hb
    · exfalso
      unfold chunk_list at hch
      rw [if_pos hzero] at hch
      cases hch
    · exact hpos
  rw [chunk_list_pos keys bs hbs] at hch
  have hbatches : batches = chunksAux bs.toNat keys.length keys := by
    cases hch; rfl
  subst hbatches
  refine ⟨_, _, _, fetch_eq_ok net keys bs mr base hbs,
    fetchBatches_get? net mr base _ 0 [] b batchB hb, ?_⟩
  have hsteps := batchGo_rates_steps (net b) base [] a (mr + 1) 0 0 [] (by omega)
    (fun a2 h1 h2 => hpre a2 (by omega) (by omega))
  obtain ⟨tail, htail⟩ :=
    batchGo_waits_ext (net b) base [] (mr + 1 - a) (0 + a) (0 + a) ([] ++ rateWaits (net b) base 0 a)
  show (traceOf (net (0 + b)) mr base).2.1.get? (a - 1) = _
  rw [show 0 + b = b from by omega]
  unfold traceOf
  rw [hsteps, htail]
  simp only [List.nil_append]
  rw [List.get?_eq_getElem?, List.getElem?_append_left (by rw [rateWaits_length]; omega)]
  unfold rateWaits
  rw [List.getElem?_map]
  rw [show (List.range a)[a - 1]? = some (a - 1) from by
    rw [List.getElem?_range (by omega)]]
  simp only [Option.map_some']
  rw [show 0 + (a - 1) + 1 = a from by omega, hra]
  cases raS with
  | none => rfl
  | some s =>
      show some (rateWait (some s) base a) = _
      unfold rateWait
      cases hp : parseFloat? s <;> simp [Option.bind, hp]

/-- Witness for C9 at a concrete input. -/
theorem c9_retry_after_wait_witness :
    (chunk_list ["k1"] 2 = Except.ok [["k1"]]) ∧
    ([["k1"]].get? 0 = some ["k1"]) ∧
    (netW2 0 1 = Resp.rate (some "7")) ∧
    (∃ m traces tr,
      fetch_quotes_for_instrument_keys netW2 ["k1"] 2 4 2 = Except.ok (m, traces) ∧
      traces.get? 0 = some tr ∧
      tr.waits.get? (1 - 1) =
        some (((some "7" : Option String).bind parseFloat?).getD ((2 : ℚ) * 2 ^ (1 - 1)))) := by
  refine ⟨rfl, rfl, rfl, ?_⟩
  exact c9_retry_after_wait netW2 ["k1"] 2 4 2 [["k1"]] 0 ["k1"] 1 (some "7")
    rfl rfl (fun a2 h1 h2 => by
      have ha : a2 = 1 := by omega
      subst ha
      exact ⟨some "7", rfl⟩) rfl (by omega) (by omega)

/-! ### Lemmas about the strike maps -/

lemma assocUpd_cons_pos {β : Type _} (k1 s : ℚ) (b1 : β) (rest : List (ℚ × β)) (d : β)
    (f : β → β) (h : k1 = s) :
    assocUpd ((k1, b1) :: rest) s d f = (k1, f b1) :: rest := by
  simp [assocUpd, h]

lemma assocUpd_cons_neg {β : Type _} (k1 s : ℚ) (b1 : β) (rest : List (ℚ × β)) (d : β)
    (f : β → β) (h : ¬ k1 = s) :
    assocUpd ((k1, b1) :: rest) s d f = (k1, b1) :: assocUpd rest s d f := by
  simp [assocUpd, h]

lemma mem_map_fst_assocUpd {β : Type _} (s k : ℚ) (d : β) (f : β → β) :
    ∀ m : List (ℚ × β), k ∈ (assocUpd m s d f).map Prod.fst ↔ k ∈ m.map Prod.fst ∨ k = s := by
  intro m
  induction m with
  | nil => simp [assocUpd]
  | cons p rest ih =>
      rcases p with ⟨k1, b1⟩
      by_cases hk : k1 = s
      · rw [assocUpd_cons_pos k1 s b1 rest d f hk]
        subst hk
        simp only [List.map_cons, List.mem_cons]
        tauto
      · rw [assocUpd_cons_neg k1 s b1 rest d f hk]
        simp only [List.map_cons, List.mem_cons, ih]
        tauto

lemma map_fst_assocUpd_of_mem {β : Type _} (s : ℚ) (d : β) (f : β → β) :
    ∀ m : List (ℚ × β), s ∈ m.map Prod.fst →
      (assocUpd m s d f).map Prod.fst = m.map Prod.fst := by
  intro m
  induction m with
  | nil => intro h; cases h
  | cons p rest ih =>
      rcases p with ⟨k1, b1⟩
      intro h
      by_cases hk : k1 = s
      · rw [assocUpd_cons_pos k1 s b1 rest d f hk]
        simp
      · simp only [List.map_cons, List.mem_cons] at h
        rcases h with h | h
        · exact absurd h.symm hk
        · rw [assocUpd_cons_neg k1 s b1 rest d f hk]
          simp only [List.map_cons, ih h]

lemma map_fst_assocUpd_of_not_mem {β : Type _} (s : ℚ) (d : β) (f : β → β) :
    ∀ m : List (ℚ × β), s ∉ m.map Prod.fst →
      (assocUpd m s d f).map Prod.fst = m.map Prod.fst ++ [s] := by
  intro m
  induction m with
  | nil => intro _; rfl
  | cons p rest ih =>
      rcases p with ⟨k1, b1⟩
      intro h
      simp only [List.map_cons, List.mem_cons] at h
      push_neg at h
      rw [assocUpd_cons_neg k1 s b1 rest d f (fun he => h.1 he.symm)]
      simp only [List.map_cons, ih h.2, List.cons_append]

lemma nodup_map_fst_assocUpd {β : Type _} (s : ℚ) (d : β) (f : β → β)
    (m : List (ℚ × β)) (h : (m.map Prod.fst).Nodup) :
    ((assocUpd m s d f).map Prod.fst).Nodup := by
  by_cases hs : s ∈ m.map Prod.fst
  · rw [map_fst_assocUpd_of_mem s d f m hs]; exact h
  · rw [map_fst_assocUpd_of_not_mem s d f m hs]
    simp [List.nodup_append, h, hs]

lemma mem_assocUpd {β : Type _} (s : ℚ) (d : β) (f : β → β) :
    ∀ (m : List (ℚ × β)) (p : ℚ × β), p ∈ assocUpd m s d f →
      p ∈ m ∨ ∃ b, p = (s, f b) ∧ (b = d ∨ (s, b) ∈ m) := by
  intro m
  induction m with
  | nil =>
      intro p hp
      rcases List.mem_singleton.mp hp with h
      exact Or.inr ⟨d, h, Or.inl rfl⟩
  | cons q rest ih =>
      rcases q with ⟨k1, b1⟩
      intro p hp
      by_cases hk : k1 = s
      · rw [assocUpd_cons_pos k1 s b1 rest d f hk] at hp
        subst hk
        rcases List.mem_cons.mp hp with hp | hp
        · exact Or.inr ⟨b1, hp, Or.inr (List.mem_cons_self _ _)⟩
        · exact Or.inl (List.mem_cons_of_mem _ hp)
      · rw [assocUpd_cons_neg k1 s b1 rest d f hk] at hp
        rcases List.mem_cons.mp hp with hp | hp
        · exact Or.inl (by rw [hp]; exact List.mem_cons_self _ _)
        · rcases ih p hp with h | ⟨b, hb, hmem⟩
          · exact Or.inl (List.mem_cons_of_mem _ h)
          · refine Or.inr ⟨b, hb, ?_⟩
            rcases hmem with h | h
            · exact Or.inl h
            · exact Or.inr (List.mem_cons_of_mem _ h)

lemma assocFind_mem {β : Type _} (d : β) (k : ℚ) :
    ∀ m : List (ℚ × β), k ∈ m.map Prod.fst → (k, assocFind m d k) ∈ m := by
  intro m
  induction m with
  | nil => intro h; cases h
  | cons p rest ih =>
      rcases p with ⟨k1, b1⟩
      intro h
      by_cases hk : k1 = k
      · subst hk
        simp only [assocFind, List.find?, beq_self_eq_true]
        exact List.mem_cons_self _ _
      · have hfind : ((k1, b1).1 == k) = false := beq_eq_false_iff_ne.mpr hk
        simp only [assocFind, List.find?, hfind]
        simp only [List.map_cons, List.mem_cons] at h
        rcases h with h | h
        · exact absurd h.symm hk
        · exact List.mem_cons_of_mem _ (ih h)

/-! ### Key set and origin of the select_window_keys strike map -/

lemma mem_keys_foldl_swkStep :
    ∀ (rows : List Row) (m : List (ℚ × SBucket)) (k : ℚ),
      k ∈ ((rows.foldl swkStep m).map Prod.fst) ↔
        k ∈ m.map Prod.fst ∨ ∃ r ∈ rows, swkStrike r = some k := by
  intro rows
  induction rows with
  | nil => intro m k; simp
  | cons r rest ih =>
      intro m k
      show k ∈ ((rest.foldl swkStep (swkStep m r)).map Prod.fst) ↔ _
      rw [ih (swkStep m r) k]
      cases hs : swkStrike r with
      | none =>
          simp only [swkStep, hs]
          constructor
          · rintro (h | h)
            · exact Or.inl h
            · obtain ⟨r2, hr2, hk2⟩ := h
              exact Or.inr ⟨r2, List.mem_cons_of_mem _ hr2, hk2⟩
          · rintro (h | ⟨r2, hr2, hk2⟩)
            · exact Or.inl h
            · rcases List.mem_cons.mp hr2 with he | he
              · subst he; rw [hk2] at hs; cases hs
              · exact Or.inr ⟨r2, he, hk2⟩
      | some s =>
          simp only [swkStep, hs, mem_map_fst_assocUpd]
          constructor
          · rintro ((h | h) | h)
            · exact Or.inl h
            · exact Or.inr ⟨r, List.mem_cons_self _ _, by rw [hs, h]⟩
            · obtain ⟨r2, hr2, hk2⟩ := h
              exact Or.inr ⟨r2, List.mem_cons_of_mem _ hr2, hk2⟩
          · rintro (h | ⟨r2, hr2, hk2⟩)
            · exact Or.inl (Or.inl h)
            · rcases List.mem_cons.mp hr2 with he | he
              · subst he
                rw [hk2] at hs
                cases hs
                exact Or.inl (Or.inr rfl)
              · exact Or.inr ⟨r2, he, hk2⟩

lemma nodup_keys_foldl_swkStep :
    ∀ (rows : List Row) (m : List (ℚ × SBucket)),
      (m.map Prod.fst).Nodup → ((rows.foldl swkStep m).map Prod.fst).Nodup := by
  intro rows
  induction rows with
  | nil => intro m h; exact h
  | cons r rest ih =>
      intro m h
      apply ih
      cases hs : swkStrike r with
      | none => simpa [swkStep, hs] using h
      | some s =>
          simp only [swkStep, hs]
          exact nodup_map_fst_assocUpd _ _ _ m h

lemma swkMap_keys_nodup (rows : List Row) : ((swkMap rows).map Prod.fst).Nodup :=
  nodup_keys_foldl_swkStep rows [] List.nodup_nil

lemma mem_swkMap_keys (rows : List Row) (k : ℚ) :
    k ∈ (swkMap rows).map Prod.fst ↔ ∃ r ∈ rows, swkStrike r = some k := by
  rw [swkMap, mem_keys_foldl_swkStep rows [] k]
  simp

lemma swkStrikes_perm (rows : List Row) :
    (swkStrikes rows).Perm ((swkMap rows).map Prod.fst) :=
  List.perm_insertionSort _ _

lemma mem_swkStrikes (rows : List Row) (k : ℚ) :
    k ∈ swkStrikes rows ↔ ∃ r ∈ rows, swkStrike r = some k := by
  rw [(swkStrikes_perm rows).mem_iff, mem_swkMap_keys]

lemma swkStrikes_nodup (rows : List Row) : (swkStrikes rows).Nodup :=
  (swkStrikes_perm rows).nodup_iff.mpr (swkMap_keys_nodup rows)

lemma swkStrikes_sorted_le (rows : List Row) :
    (swkStrikes rows).Sorted (fun a b => a ≤ b) :=
  List.sorted_insertionSort _ _

lemma swkStrikes_sorted_lt (rows : List Row) : (swkStrikes rows).Sorted (· < ·) :=
  (swkStrikes_sorted_le rows).lt_of_le (swkStrikes_nodup rows)

lemma sbOrigin_mono {rows rows2 : List Row} (hsub : ∀ r ∈ rows, r ∈ rows2) (k : ℚ) (b : SBucket)
    (h : sbOrigin rows k b) : sbOrigin rows2 k b := by
  rcases h with ⟨hce, hpe⟩
  constructor
  · rcases hce with h | ⟨r, hr, h1, h2, h3⟩
    · exact Or.inl h
    · exact Or.inr ⟨r, hsub r hr, h1, h2, h3⟩
  · rcases hpe with h | ⟨r, hr, h1, h2, h3⟩
    · exact Or.inl h
    · exact Or.inr ⟨r, hsub r hr, h1, h2, h3⟩

lemma sbOrigin_sbUpd (rows : List Row) (r : Row) (hr : r ∈ rows) (k : ℚ) (b : SBucket)
    (hb : sbOrigin rows k b) (hk : swkStrike r = some k) :
    sbOrigin rows k (sbUpd (sideOf (tsOf r)) (swkIk r) b) := by
  rcases hb with ⟨hce, hpe⟩
  cases hside : sideOf (tsOf r) with
  | none => exact ⟨hce, hpe⟩
  | some sd =>
      cases sd with
      | ce =>
          refine ⟨Or.inr ⟨r, hr, hk, hside, rfl⟩, ?_⟩
          simpa [sbUpd] using hpe
      | pe =>
          refine ⟨?_, Or.inr ⟨r, hr, hk, hside, rfl⟩⟩
          simpa [sbUpd] using hce

lemma sbOrigin_empty (rows : List Row) (k : ℚ) : sbOrigin rows k {} :=
  ⟨Or.inl rfl, Or.inl rfl⟩

lemma foldl_swkStep_origin (rows2 : List Row) :
    ∀ (rows : List Row) (m : List (ℚ × SBucket)),
      (∀ r ∈ rows, r ∈ rows2) →
      (∀ k b, (k, b) ∈ m → sbOrigin rows2 k b) →
      ∀ k b, (k, b) ∈ rows.foldl swkStep m → sbOrigin rows2 k b := by
  intro rows
  induction rows with
  | nil => intro m _ hm k b hb; exact hm k b hb
  | cons r rest ih =>
      intro m hsub hm k b hb
      refine ih (swkStep m r) (fun r2 h2 => hsub r2 (List.mem_cons_of_mem _ h2)) ?_ k b hb
      intro k2 b2 hb2
      cases hs : swkStrike r with
      | none =>
          rw [swkStep, hs] at hb2
          exact hm k2 b2 hb2
      | some s =>
          rw [swkStep, hs] at hb2
          rcases mem_assocUpd s {} _ m (k2, b2) hb2 with h | ⟨b0, hb0, horig⟩
          · exact hm k2 b2 h
          · have hk2 : k2 = s ∧ b2 = sbUpd (sideOf (tsOf r)) (swkIk r) b0 := by
              constructor
              · exact congrArg Prod.fst hb0
              · exact congrArg Prod.snd hb0
            rcases hk2 with ⟨hk2, hb2e⟩
            subst hk2
            subst hb2e
            have hb0orig : sbOrigin rows2 k2 b0 := by
              rcases horig with h | h
              · subst h; exact sbOrigin_empty rows2 k2
              · exact hm k2 b0 h
            exact sbOrigin_sbUpd rows2 r (hsub r (List.mem_cons_self _ _)) k2 b0 hb0orig hs

lemma swkMap_origin (rows : List Row) :
    ∀ k b, (k, b) ∈ swkMap rows → sbOrigin rows k b :=
  foldl_swkStep_origin rows rows [] (fun _ h => h) (fun _ _ h => by cases h)

/-! ### The first-minimum property of argminAbs -/

lemma argminAux_nil (a : ℚ) (idx : ℕ) (bv : ℚ) (best : ℕ) :
    argminAux a [] idx bv best = best := rfl

lemma argminAux_cons (a x : ℚ) (xs : List ℚ) (idx : ℕ) (bv : ℚ) (best : ℕ) :
    argminAux a (x :: xs) idx bv best =
      if |x - a| < bv then argminAux a xs (idx + 1) |x - a| idx
      else argminAux a xs (idx + 1) bv best := rfl

lemma argminAux_drop_spec (a : ℚ) (l : List ℚ) :
    ∀ (n idx best : ℕ) (bv : ℚ) (hidxn : l.length - idx = n) (hidx : idx ≤ l.length)
      (hbest : best < idx) (hbv : ∀ hb : best < l.length, bv = |l.get ⟨best, hb⟩ - a|)
      (hmin : ∀ j (hj : j < l.length), j < idx → bv ≤ |l.get ⟨j, hj⟩ - a|)
      (hfirst : ∀ j (hj : j < l.length), j < best → bv < |l.get ⟨j, hj⟩ - a|),
      argminAux a (l.drop idx) idx bv best < l.length ∧
      ∀ hr : argminAux a (l.drop idx) idx bv best < l.length,
        (∀ j (hj : j < l.length),
          |l.get ⟨argminAux a (l.drop idx) idx bv best, hr⟩ - a| ≤ |l.get ⟨j, hj⟩ - a|) ∧
        (∀ j (hj : j < l.length), j < argminAux a (l.drop idx) idx bv best →
          |l.get ⟨argminAux a (l.drop idx) idx bv best, hr⟩ - a| < |l.get ⟨j, hj⟩ - a|) := by
  intro n
  induction n with
  | zero =>
      intro idx best bv hidxn hidx hbest hbv hmin hfirst
      have hdrop : l.drop idx = [] := List.drop_eq_nil_of_le (by omega)
      rw [hdrop, argminAux_nil]
      have hbl : best < l.length := by omega
      refine ⟨hbl, fun hr => ⟨?_, ?_⟩⟩
      · intro j hj
        rw [← hbv hr]
        exact hmin j hj (by omega)
      · intro j hj hjb
        rw [← hbv hr]
        exact hfirst j hj hjb
  | succ n ih =>
      intro idx best bv hidxn hidx hbest hbv hmin hfirst
      have hidxl : idx < l.length := by omega
      have hdrop : l.drop idx = l.get ⟨idx, hidxl⟩ :: l.drop (idx + 1) := by
        rw [List.drop_eq_getElem_cons hidxl]
        rfl
      rw [hdrop, argminAux_cons]
      by_cases hlt : |l.get ⟨idx, hidxl⟩ - a| < bv
      · rw [if_pos hlt]
        exact ih (idx + 1) idx |l.get ⟨idx, hidxl⟩ - a| (by omega) (by omega) (by omega)
          (fun hb => rfl)
          (fun j hj hji => by
            rcases Nat.lt_succ_iff_lt_or_eq.mp hji with h | h
            · exact le_of_lt (lt_of_lt_of_le hlt (hmin j hj h))
            · subst h; exact le_refl _)
          (fun j hj hji => lt_of_lt_of_le hlt (hmin j hj (by omega)))
      · rw [if_neg hlt]
        exact ih (idx + 1) best bv (by omega) (by omega) (by omega) hbv
          (fun j hj hji => by
            rcases Nat.lt_succ_iff_lt_or_eq.mp hji with h | h
            · exact hmin j hj h
            · subst h; exact le_of_not_lt hlt)
          hfirst

lemma argminAbs_spec (l : List ℚ) (a : ℚ) (hne : l ≠ []) :
    argminAbs l a < l.length ∧
    ∀ hr : argminAbs l a < l.length,
      (∀ j (hj : j < l.length), |l.get ⟨argminAbs l a, hr⟩ - a| ≤ |l.get ⟨j, hj⟩ - a|) ∧
      (∀ j (hj : j < l.length), j < argminAbs l a →
        |l.get ⟨argminAbs l a, hr⟩ - a| < |l.get ⟨j, hj⟩ - a|) := by
  cases l with
  | nil => exact absurd rfl hne
  | cons x xs =>
      exact argminAux_drop_spec a (x :: xs) xs.length 1 0 |x - a| (by simp) (by simp) (by omega)
        (fun hb => rfl)
        (fun j hj hji => by
          have hj0 : j = 0 := by omega
          subst hj0
          exact le_refl _)
        (fun j hj hji => by omega)

lemma centerIdx_lt (strikes : List ℚ) (atm : Option ℚ) (hne : strikes ≠ []) :
    centerIdx strikes atm < strikes.length := by
  cases atm with
  | none =>
      show strikes.length / 2 < strikes.length
      have : 0 < strikes.length := List.length_pos.mpr hne
      omega
  | some a => exact (argminAbs_spec strikes a hne).1

/-! ### Slice bound arithmetic -/

lemma sliceBound_nonneg_le (n i : ℤ) (h0 : 0 ≤ i) (hn : i ≤ n) : sliceBound n i = i.toNat := by
  unfold sliceBound
  rw [if_neg (by omega)]
  omega

lemma pySlice_center (l : List ℚ) (c : ℕ) (hc : c < l.length) :
    pySlice l (c : ℤ) ((c : ℤ) + 1) = [l.get ⟨c, hc⟩] := by
  unfold pySlice
  rw [sliceBound_nonneg_le _ _ (by omega) (by omega),
    sliceBound_nonneg_le _ _ (by omega) (by omega)]
  rw [show ((c : ℤ) + 1).toNat - (c : ℤ).toNat = 1 from by omega,
    show ((c : ℤ)).toNat = c from by omega]
  rw [List.drop_eq_getElem_cons hc]
  rfl

lemma select_window_keys_eq (rows : List Row) (atm : Option ℚ) (w : ℤ)
    (hne : swkStrikes rows ≠ []) :
    select_window_keys rows atm w =
      (pySlice (swkStrikes rows) (max 0 ((centerIdx (swkStrikes rows) atm : ℤ) - w))
        (min (((swkStrikes rows).length : ℤ) - 1) ((centerIdx (swkStrikes rows) atm : ℤ) + w) + 1)).flatMap
        (fun s => bucketIds (assocFind (swkMap rows) {} s)) := by
  simp only [select_window_keys]
  rw [if_neg (by simp [List.isEmpty_iff, hne])]

/-- C5 (amended): a negative batch size fetches nothing and returns the empty
map without error; a zero batch size raises (the ValueError of `range` with a
zero step) as soon as the identifier list is non-empty; a zero window does not
select nothing but exactly the ids registered at the center strike. -/
theorem c5_zero_negative_limits :
    (∀ (net : ℕ → ℕ → Resp) (keys : List String) (bs : ℤ) (mr : ℕ) (base : ℚ), bs < 0 →
      fetch_quotes_for_instrument_keys net keys bs mr base = Except.ok ([], [])) ∧
    (∀ (net : ℕ → ℕ → Resp) (keys : List String) (mr : ℕ) (base : ℚ), keys ≠ [] →
      fetch_quotes_for_instrument_keys net keys 0 mr base = Except.error ()) ∧
    (∀ (rows : List Row) (atm : Option ℚ), swkStrikes rows ≠ [] →
      ∃ sc, (swkStrikes rows).get? (centerIdx (swkStrikes rows) atm) = some sc ∧
        select_window_keys rows atm 0 = bucketIds (assocFind (swkMap rows) {} sc)) := by
  refine ⟨?_, ?_, ?_⟩
  · intro net keys bs mr base hbs
    cases keys with
    | nil => rfl
    | cons x xs =>
        simp only [fetch_quotes_for_instrument_keys, List.isEmpty_cons, Bool.false_eq_true,
          if_false, chunk_list, if_neg (show ¬ bs = 0 from by omega), if_pos hbs]
        rfl
  · intro net keys mr base hkeys
    cases keys with
    | nil => exact absurd rfl hkeys
    | cons x xs =>
        simp only [fetch_quotes_for_instrument_keys, List.isEmpty_cons, Bool.false_eq_true,
          if_false, chunk_list, if_pos rfl]
        simp
  · intro rows atm hne
    have hc : centerIdx (swkStrikes rows) atm < (swkStrikes rows).length :=
      centerIdx_lt (swkStrikes rows) atm hne
    refine ⟨(swkStrikes rows).get ⟨centerIdx (swkStrikes rows) atm, hc⟩, ?_, ?_⟩
    · rw [List.get?_eq_getElem?, List.getElem?_eq_getElem hc]
      rfl
    · rw [select_window_keys_eq rows atm 0 hne]
      rw [show max 0 ((centerIdx (swkStrikes rows) atm : ℤ) - 0) =
            (centerIdx (swkStrikes rows) atm : ℤ) from by omega,
        show min (((swkStrikes rows).length : ℤ) - 1) ((centerIdx (swkStrikes rows) atm : ℤ) + 0) + 1 =
            (centerIdx (swkStrikes rows) atm : ℤ) + 1 from by omega]
      rw [pySlice_center (swkStrikes rows) (centerIdx (swkStrikes rows) atm) hc]
      simp

/-- Counterexample to C5 as stated: with window 0 the selector returns the
center strike's id, not the empty list. -/
theorem c5_counterexample :
    select_window_keys [exRow1] none 0 = ["A"] ∧ select_window_keys [exRow1] none 0 ≠ [] := by
  with_unfolding_all decide

/-- Witness for C5 (amended) at concrete inputs. -/
theorem c5_zero_negative_limits_witness :
    ((-1 : ℤ) < 0) ∧
    (fetch_quotes_for_instrument_keys netW2 ["A"] (-1) 4 2 = Except.ok ([], [])) ∧
    ((["A"] : List String) ≠ []) ∧
    (fetch_quotes_for_instrument_keys netW2 ["A"] 0 4 2 = Except.error ()) ∧
    (swkStrikes [exRow1] ≠ []) ∧
    (∃ sc, (swkStrikes [exRow1]).get? (centerIdx (swkStrikes [exRow1]) none) = some sc ∧
      select_window_keys [exRow1] none 0 = bucketIds (assocFind (swkMap [exRow1]) {} sc)) :=
  ⟨by decide,
   c5_zero_negative_limits.1 netW2 ["A"] (-1) 4 2 (by decide),
   by decide,
   c5_zero_negative_limits.2.1 netW2 ["A"] 4 2 (by decide),
   by with_unfolding_all decide,
   c5_zero_negative_limits.2.2 [exRow1] none (by with_unfolding_all decide)⟩

/-- C10: a row whose strike fields are all absent or falsy resolves to strike
0.0 and is not dropped: it forms a strike-0 bucket that participates in the
strike list (exactly the rows whose conversion fails are skipped), and it can
be chosen as the window center. -/
theorem c10_falsy_strike_zero :
    (∀ r : Row, pyTruthy r.strike_price = false → pyTruthy r.strike = false →
      swkStrike r = some 0) ∧
    (∀ (rows : List Row) (k : ℚ), k ∈ swkStrikes rows ↔ ∃ r ∈ rows, swkStrike r = some k) ∧
    (∀ (rows : List Row) (r : Row), r ∈ rows → swkStrike r = some 0 →
      (0 : ℚ) ∈ swkStrikes rows) ∧
    (select_window_keys [exRowNoStrike, exRow5W] (some (-1)) 0 = ["Z"]) := by
  refine ⟨?_, mem_swkStrikes, ?_, ?_⟩
  · intro r h1 h2
    simp [swkStrike, pyOrV, h1, h2, pyFloat]
  · intro rows r hr h0
    exact (mem_swkStrikes rows 0).mpr ⟨r, hr, h0⟩
  · with_unfolding_all decide

/-- Witness for C10 at a concrete input. -/
theorem c10_falsy_strike_zero_witness :
    (pyTruthy exRowNoStrike.strike_price = false) ∧
    (pyTruthy exRowNoStrike.strike = false) ∧
    (swkStrike exRowNoStrike = some 0) ∧
    (exRowNoStrike ∈ [exRowNoStrike, exRow5W]) ∧
    ((0 : ℚ) ∈ swkStrikes [exRowNoStrike, exRow5W]) :=
  ⟨by decide, by decide,
   c10_falsy_strike_zero.1 exRowNoStrike (by decide) (by decide),
   by decide,
   c10_falsy_strike_zero.2.2.1 [exRowNoStrike, exRow5W] exRowNoStrike (by decide)
     (c10_falsy_strike_zero.1 exRowNoStrike (by decide) (by decide))⟩

/-! ### C4: subset, order and duplication of the selector output -/

lemma select_window_keys_empty (rows : List Row) (atm : Option ℚ) (w : ℤ)
    (h : swkStrikes rows = []) : select_window_keys rows atm w = [] := by
  simp only [select_window_keys]
  rw [if_pos (by simp [List.isEmpty_iff, h])]

lemma sideIds_some (t : String) : sideIds (some t) = if t = "" then [] else [t] := rfl

lemma sideIds_mem (o : Option String) (x : String) :
    x ∈ sideIds o ↔ x ≠ "" ∧ o = some x := by
  cases o with
  | none =>
      constructor
      · intro h; cases h
      · rintro ⟨_, h⟩; cases h
  | some t =>
      rw [sideIds_some]
      by_cases ht : t = ""
      · rw [if_pos ht]
        constructor
        · intro h; cases h
        · rintro ⟨h1, h2⟩
          exact absurd ((Option.some.inj h2).symm.trans ht) h1
      · rw [if_neg ht]
        constructor
        · intro h
          rw [List.mem_singleton] at h
          subst h
          exact ⟨ht, rfl⟩
        · rintro ⟨h1, h2⟩
          rw [Option.some.inj h2]
          exact List.mem_singleton.mpr rfl

lemma sideIds_nodup (o : Option String) : (sideIds o).Nodup := by
  cases o with
  | none => exact List.nodup_nil
  | some t =>
      rw [sideIds_some]
      by_cases ht : t = ""
      · rw [if_pos ht]; exact List.nodup_nil
      · rw [if_neg ht]; exact List.nodup_singleton t

lemma bucketIds_mem (b : SBucket) (x : String) :
    x ∈ bucketIds b ↔ x ≠ "" ∧ (b.ce = some x ∨ b.pe = some x) := by
  unfold bucketIds
  rw [List.mem_append, sideIds_mem, sideIds_mem]
  tauto

lemma assocFind_origin (rows : List Row) (s : ℚ) (hs : s ∈ swkStrikes rows) :
    sbOrigin rows s (assocFind (swkMap rows) {} s) := by
  have hkeys : s ∈ (swkMap rows).map Prod.fst := (swkStrikes_perm rows).mem_iff.mp hs
  exact swkMap_origin rows s _ (assocFind_mem {} s (swkMap rows) hkeys)

lemma slot_row_ce (rows : List Row) (s : ℚ) (hs : s ∈ swkStrikes rows) (x : String)
    (hx : (assocFind (swkMap rows) {} s).ce = some x) :
    ∃ r ∈ rows, swkStrike r = some s ∧ sideOf (tsOf r) = some Side.ce ∧ swkIk r = some x := by
  rcases (assocFind_origin rows s hs).1 with h | ⟨r, hr, h1, h2, h3⟩
  · rw [hx] at h; cases h
  · exact ⟨r, hr, h1, h2, by rw [h3, hx]⟩

lemma slot_row_pe (rows : List Row) (s : ℚ) (hs : s ∈ swkStrikes rows) (x : String)
    (hx : (assocFind (swkMap rows) {} s).pe = some x) :
    ∃ r ∈ rows, swkStrike r = some s ∧ sideOf (tsOf r) = some Side.pe ∧ swkIk r = some x := by
  rcases (assocFind_origin rows s hs).2 with h | ⟨r, hr, h1, h2, h3⟩
  · rw [hx] at h; cases h
  · exact ⟨r, hr, h1, h2, by rw [h3, hx]⟩

lemma slot_row (rows : List Row) (s : ℚ) (hs : s ∈ swkStrikes rows) (x : String)
    (hx : (assocFind (swkMap rows) {} s).ce = some x ∨ (assocFind (swkMap rows) {} s).pe = some x) :
    ∃ r ∈ rows, swkStrike r = some s ∧ swkIk r = some x := by
  rcases hx with hx | hx
  · obtain ⟨r, hr, h1, _, h3⟩ := slot_row_ce rows s hs x hx
    exact ⟨r, hr, h1, h3⟩
  · obtain ⟨r, hr, h1, _, h3⟩ := slot_row_pe rows s hs x hx
    exact ⟨r, hr, h1, h3⟩

/-- C4 (amended): every selected id resolves from some input row, the output
is grouped by strictly ascending strike with the call id before the put id,
and it is duplicate-free whenever no two distinct rows resolve the same
truthy identifier (the code does not deduplicate ids shared across rows). -/
theorem c4_output_invariants (rows : List Row) (atm : Option ℚ) (w : ℤ) :
    (∀ x ∈ select_window_keys rows atm w, ∃ r ∈ rows, swkIk r = some x) ∧
    (∃ sel : List ℚ, List.Sorted (· < ·) sel ∧ (∀ s ∈ sel, s ∈ swkStrikes rows) ∧
      select_window_keys rows atm w =
        sel.flatMap (fun s => bucketIds (assocFind (swkMap rows) {} s))) ∧
    ((∀ r1 ∈ rows, ∀ r2 ∈ rows, r1 ≠ r2 → ∀ x : String, swkIk r1 = some x → x ≠ "" →
        swkIk r2 ≠ some x) →
      (select_window_keys rows atm w).Nodup) := by
  by_cases hne : swkStrikes rows = []
  · rw [select_window_keys_empty rows atm w hne]
    exact ⟨by simp, ⟨[], by simp, by simp, by simp⟩, fun _ => List.nodup_nil⟩
  · have heq := select_window_keys_eq rows atm w hne
    have hsub : (pySlice (swkStrikes rows)
        (max 0 ((centerIdx (swkStrikes rows) atm : ℤ) - w))
        (min (((swkStrikes rows).length : ℤ) - 1) ((centerIdx (swkStrikes rows) atm : ℤ) + w) + 1)).Sublist
          (swkStrikes rows) :=
      List.Sublist.trans (List.take_sublist _ _) (List.drop_sublist _ _)
    have hmemsel : ∀ s ∈ (pySlice (swkStrikes rows)
        (max 0 ((centerIdx (swkStrikes rows) atm : ℤ) - w))
        (min (((swkStrikes rows).length : ℤ) - 1) ((centerIdx (swkStrikes rows) atm : ℤ) + w) + 1)),
          s ∈ swkStrikes rows := fun s hss => hsub.mem hss
    have hselSorted := List.Pairwise.sublist hsub (swkStrikes_sorted_lt rows)
    refine ⟨?_, ⟨_, hselSorted, hmemsel, heq⟩, ?_⟩
    · intro x hx
      rw [heq] at hx
      obtain ⟨s, hssel, hxb⟩ := List.mem_flatMap.mp hx
      obtain ⟨hxne, hslot⟩ := (bucketIds_mem _ x).mp hxb
      obtain ⟨r, hr, _, hik⟩ := slot_row rows s (hmemsel s hssel) x hslot
      exact ⟨r, hr, hik⟩
    · intro hdist
      rw [heq, List.nodup_flatMap]
      constructor
      · intro s hssel
        have hs := hmemsel s hssel
        have hslots : ∀ x : String, x ≠ "" →
            (assocFind (swkMap rows) {} s).ce = some x →
            (assocFind (swkMap rows) {} s).pe ≠ some x := by
          intro x hxne hce hpe
          obtain ⟨r1, hr1, hk1, hside1, hik1⟩ := slot_row_ce rows s hs x hce
          obtain ⟨r2, hr2, hk2, hside2, hik2⟩ := slot_row_pe rows s hs x hpe
          have hrr : r1 ≠ r2 := by
            intro he
            subst he
            rw [hside1] at hside2
            cases hside2
          exact hdist r1 hr1 r2 hr2 hrr x hik1 hxne hik2
        show (sideIds _ ++ sideIds _).Nodup
        rw [List.nodup_append]
        refine ⟨sideIds_nodup _, sideIds_nodup _, ?_⟩
        intro x hx1 hx2
        obtain ⟨hxne, hce⟩ := (sideIds_mem _ x).mp hx1
        obtain ⟨_, hpe⟩ := (sideIds_mem _ x).mp hx2
        exact hslots x hxne hce hpe
      · refine List.Pairwise.imp_of_mem ?_ (hselSorted.imp (fun h => ne_of_lt h))
        intro s1 s2 hs1 hs2 hne12
        intro x hx1 hx2
        obtain ⟨hxne, hslot1⟩ := (bucketIds_mem _ x).mp hx1
        obtain ⟨_, hslot2⟩ := (bucketIds_mem _ x).mp hx2
        obtain ⟨r1, hr1, hk1, hik1⟩ := slot_row rows s1 (hmemsel s1 hs1) x hslot1
        obtain ⟨r2, hr2, hk2, hik2⟩ := slot_row rows s2 (hmemsel s2 hs2) x hslot2
        have hrr : r1 ≠ r2 := by
          intro he
          subst he
          rw [hk1] at hk2
          exact hne12 (Option.some.inj hk2)
        exact hdist r1 hr1 r2 hr2 hrr x hik1 hxne hik2

/-- Counterexample to C4 as stated: the output can contain duplicates. -/
theorem c4_counterexample :
    select_window_keys [exRowX1, exRowX2] none 10 = ["X", "X"] ∧
    ¬ (select_window_keys [exRowX1, exRowX2] none 10).Nodup := by
  with_unfolding_all decide

/-- Witness for C4 (amended) at a concrete input. -/
theorem c4_output_invariants_witness :
    ("A" ∈ select_window_keys [exRow1] none 10) ∧
    (∃ r ∈ [exRow1], swkIk r = some "A") ∧
    (select_window_keys [exRow1] none 10).Nodup := by
  refine ⟨by with_unfolding_all decide, ?_, ?_⟩
  · exact (c4_output_invariants [exRow1] none 10).1 "A" (by with_unfolding_all decide)
  · refine (c4_output_invariants [exRow1] none 10).2.2 ?_
    intro r1 h1 r2 h2 hne x _ _
    exfalso
    rw [List.mem_singleton] at h1 h2
    rw [h1, h2] at hne
    exact hne rfl

/-! ### C3: ATM-centered window selection -/

lemma pySlice_window_nonneg (l : List ℚ) (c : ℕ) (w : ℤ) (hw : 0 ≤ w) (hc : c < l.length) :
    pySlice l (max 0 ((c : ℤ) - w)) (min ((l.length : ℤ) - 1) ((c : ℤ) + w) + 1) =
      (l.drop (c - w.toNat)).take
        (min (l.length - 1) (c + w.toNat) + 1 - (c - w.toNat)) := by
  unfold pySlice
  rw [sliceBound_nonneg_le _ _ (by omega) (by omega),
    sliceBound_nonneg_le _ _ (by omega) (by omega)]
  rw [show (max 0 ((c : ℤ) - w)).toNat = c - w.toNat from by omega,
    show (min ((l.length : ℤ) - 1) ((c : ℤ) + w) + 1).toNat =
      min (l.length - 1) (c + w.toNat) + 1 from by omega]

/-- C3 (amended, for non-negative windows): the center is the first index of
minimal absolute distance to the ATM (middle index when the ATM is absent),
and the output is exactly the ids of the strikes at indices
max(0, center-window) .. min(len-1, center+window) inclusive; on the spec's
three-strike example, window 1 selects all six ids and window 0 only the
105 ids. -/
theorem c3_window_selection (rows : List Row) (w : ℤ) (hw : 0 ≤ w)
    (hne : swkStrikes rows ≠ []) :
    (∀ a : ℚ,
      ∃ hc : argminAbs (swkStrikes rows) a < (swkStrikes rows).length,
        (∀ j (hj : j < (swkStrikes rows).length),
          |(swkStrikes rows).get ⟨argminAbs (swkStrikes rows) a, hc⟩ - a| ≤
            |(swkStrikes rows).get ⟨j, hj⟩ - a|) ∧
        (∀ j (hj : j < (swkStrikes rows).length), j < argminAbs (swkStrikes rows) a →
          |(swkStrikes rows).get ⟨j, hj⟩ - a| >
            |(swkStrikes rows).get ⟨argminAbs (swkStrikes rows) a, hc⟩ - a|) ∧
        select_window_keys rows (some a) w =
          (((swkStrikes rows).drop (argminAbs (swkStrikes rows) a - w.toNat)).take
            (min ((swkStrikes rows).length - 1) (argminAbs (swkStrikes rows) a + w.toNat) + 1 -
              (argminAbs (swkStrikes rows) a - w.toNat))).flatMap
            (fun s => bucketIds (assocFind (swkMap rows) {} s))) ∧
    (select_window_keys rows none w =
      (((swkStrikes rows).drop ((swkStrikes rows).length / 2 - w.toNat)).take
        (min ((swkStrikes rows).length - 1) ((swkStrikes rows).length / 2 + w.toNat) + 1 -
          ((swkStrikes rows).length / 2 - w.toNat))).flatMap
        (fun s => bucketIds (assocFind (swkMap rows) {} s))) ∧
    (select_window_keys ex3Rows (some 104) 1 = ["C100", "P100", "C105", "P105", "C110", "P110"]) ∧
    (select_window_keys ex3Rows (some 104) 0 = ["C105", "P105"]) := by
  refine ⟨?_, ?_, by with_unfolding_all decide, by with_unfolding_all decide⟩
  · intro a
    obtain ⟨hc, hprops⟩ := argminAbs_spec (swkStrikes rows) a hne
    obtain ⟨hmin, hfirst⟩ := hprops hc
    refine ⟨hc, hmin, fun j hj hjc => hfirst j hj hjc, ?_⟩
    rw [select_window_keys_eq rows (some a) w hne]
    rw [show centerIdx (swkStrikes rows) (some a) = argminAbs (swkStrikes rows) a from rfl]
    rw [pySlice_window_nonneg (swkStrikes rows) (argminAbs (swkStrikes rows) a) w hw hc]
  · rw [select_window_keys_eq rows none w hne]
    rw [show centerIdx (swkStrikes rows) none = (swkStrikes rows).length / 2 from rfl]
    rw [pySlice_window_nonneg (swkStrikes rows) ((swkStrikes rows).length / 2) w hw
      (by
        have : 0 < (swkStrikes rows).length := List.length_pos.mpr hne
        omega)]

/-- Counterexample to C3 as stated: with a negative window the claimed
inclusive index range max(0, c-w) .. min(len-1, c+w) is empty (its lower
bound exceeds its upper bound), yet the code returns a non-empty list,
because Python's slice stop index wraps around when negative. -/
theorem c3_counterexample :
    select_window_keys exRows5 (some 0) (-2) = ["C", "D"] ∧
    (max 0 ((centerIdx (swkStrikes exRows5) (some 0) : ℤ) - (-2)) >
      min (((swkStrikes exRows5).length : ℤ) - 1)
        ((centerIdx (swkStrikes exRows5) (some 0) : ℤ) + (-2))) ∧
    select_window_keys exRows5 (some 0) (-2) ≠ [] := by
  with_unfolding_all decide

/-- Witness for C3 (amended) at the spec's example. -/
theorem c3_window_selection_witness :
    ((0 : ℤ) ≤ 1) ∧ (swkStrikes ex3Rows ≠ []) ∧
    (∃ hc : argminAbs (swkStrikes ex3Rows) 104 < (swkStrikes ex3Rows).length,
      (∀ j (hj : j < (swkStrikes ex3Rows).length),
        |(swkStrikes ex3Rows).get ⟨argminAbs (swkStrikes ex3Rows) 104, hc⟩ - 104| ≤
          |(swkStrikes ex3Rows).get ⟨j, hj⟩ - 104|) ∧
      (∀ j (hj : j < (swkStrikes ex3Rows).length), j < argminAbs (swkStrikes ex3Rows) 104 →
        |(swkStrikes ex3Rows).get ⟨j, hj⟩ - 104| >
          |(swkStrikes ex3Rows).get ⟨argminAbs (swkStrikes ex3Rows) 104, hc⟩ - 104|) ∧
      select_window_keys ex3Rows (some 104) 1 =
        (((swkStrikes ex3Rows).drop (argminAbs (swkStrikes ex3Rows) 104 - (1 : ℤ).toNat)).take
          (min ((swkStrikes ex3Rows).length - 1)
            (argminAbs (swkStrikes ex3Rows) 104 + (1 : ℤ).toNat) + 1 -
            (argminAbs (swkStrikes ex3Rows) 104 - (1 : ℤ).toNat))).flatMap
          (fun s => bucketIds (assocFind (swkMap ex3Rows) {} s))) :=
  ⟨by decide, by with_unfolding_all decide,
   (c3_window_selection ex3Rows 1 (by decide) (by with_unfolding_all decide)).1 104⟩

/-! ### C2: rotation slicing -/

lemma rotation_slice_eq (cand : List String) (q P t : ℕ) (h : cand.length ≠ 0) :
    rotation_slice cand q P t =
      (cand.drop ((t / P % ((cand.length + min q cand.length - 1) / min q cand.length)) *
        min q cand.length)).take (min q cand.length) := by
  simp only [rotation_slice]
  rw [if_neg h]
  rw [List.take_eq_take]
  rw [List.length_drop]
  omega

lemma mem_drop_take_iff {α : Type _} (l : List α) (a c : ℕ) (x : α) :
    x ∈ (l.drop a).take c ↔
      ∃ i, ∃ h : i < l.length, a ≤ i ∧ i < a + c ∧ l.get ⟨i, h⟩ = x := by
  constructor
  · intro hx
    obtain ⟨j, hj, hget⟩ := List.mem_iff_getElem.mp hx
    have hjc : j < c := by
      rw [List.length_take] at hj
      omega
    have hjlen : j < (l.drop a).length := by
      rw [List.length_take] at hj
      omega
    have hlen2 : a + j < l.length := by
      rw [List.length_drop] at hjlen
      omega
    refine ⟨a + j, hlen2, by omega, by omega, ?_⟩
    rw [List.get_eq_getElem]
    rw [List.getElem_take] at hget
    rw [List.getElem_drop] at hget
    exact hget
  · rintro ⟨i, h, hai, hic, hget⟩
    obtain ⟨j, rfl⟩ : ∃ j, i = a + j := ⟨i - a, by omega⟩
    apply List.mem_iff_getElem.mpr
    have hlen : j < ((l.drop a).take c).length := by
      rw [List.length_take, List.length_drop]
      omega
    refine ⟨j, hlen, ?_⟩
    rw [List.getElem_take, List.getElem_drop]
    rw [List.get_eq_getElem] at hget
    exact hget

lemma flatMap_range_drop_take {α : Type _} (s : ℕ) :
    ∀ (p : ℕ) (l : List α),
      (List.range p).flatMap (fun o => (l.drop (o * s)).take s) = l.take (p * s) := by
  intro p
  induction p with
  | zero => intro l; simp
  | succ p ih =>
      intro l
      rw [List.range_succ_eq_map, List.flatMap_cons, List.flatMap_map]
      rw [List.flatMap_congr (g := fun o => ((l.drop s).drop (o * s)).take s) (by
        intro o _
        show List.take s (List.drop (Nat.succ o * s) l) =
          List.take s (List.drop (o * s) (List.drop s l))
        rw [List.drop_drop]
        rw [show s + o * s = Nat.succ o * s from by rw [Nat.succ_eq_add_one]; ring])]
      rw [ih (l.drop s)]
      rw [show Nat.zero * s = 0 from by simp, List.drop_zero]
      rw [← List.take_add]
      rw [show s + p * s = (p + 1) * s from by ring]

lemma cover_by_offsets {α : Type _} (s p : ℕ) (l : List α) (hlen : l.length ≤ p * s) (x : α) :
    x ∈ l ↔ ∃ o, o < p ∧ x ∈ (l.drop (o * s)).take s := by
  have hcov : (List.range p).flatMap (fun o => (l.drop (o * s)).take s) = l := by
    rw [flatMap_range_drop_take, List.take_of_length_le hlen]
  constructor
  · intro hx
    rw [← hcov] at hx
    obtain ⟨o, ho, hxo⟩ := List.mem_flatMap.mp hx
    exact ⟨o, List.mem_range.mp ho, hxo⟩
  · rintro ⟨o, ho, hx⟩
    rw [← hcov]
    exact List.mem_flatMap.mpr ⟨o, List.mem_range.mpr ho, hx⟩

lemma slices_disjoint {α : Type _} (l : List α) (hnd : l.Nodup) (s o1 o2 : ℕ)
    (hne : o1 ≠ o2) (x : α) (h1 : x ∈ (l.drop (o1 * s)).take s) :
    x ∉ (l.drop (o2 * s)).take s := by
  intro h2
  obtain ⟨i1, hi1, ha1, hb1, hg1⟩ := (mem_drop_take_iff l (o1 * s) s x).mp h1
  obtain ⟨i2, hi2, ha2, hb2, hg2⟩ := (mem_drop_take_iff l (o2 * s) s x).mp h2
  have hEq : i1 = i2 := by
    have hg : l.get ⟨i1, hi1⟩ = l.get ⟨i2, hi2⟩ := by rw [hg1, hg2]
    rw [List.get_eq_getElem, List.get_eq_getElem] at hg
    exact (hnd.getElem_inj_iff.mp hg)
  subst hEq
  rcases Nat.lt_or_ge o1 o2 with hlt | hge
  · have hmul : (o1 + 1) * s ≤ o2 * s := Nat.mul_le_mul_right s (by omega)
    have hs1 : (o1 + 1) * s = o1 * s + s := by ring
    omega
  · have hlt2 : o2 < o1 := by omega
    have hmul : (o2 + 1) * s ≤ o1 * s := Nat.mul_le_mul_right s (by omega)
    have hs1 : (o2 + 1) * s = o2 * s + s := by ring
    omega

lemma offset_shift (t P i pages : ℕ) (hP : 0 < P) :
    (t + i * P) / P % pages = (t / P + i) % pages := by
  rw [Nat.add_mul_div_right t i hP]

lemma offset_inj (c pages i j : ℕ) (hi : i < pages) (hj : j < pages)
    (h : (c + i) % pages = (c + j) % pages) : i = j := by
  have hmod : i % pages = j % pages := Nat.ModEq.add_left_cancel' c h
  rw [Nat.mod_eq_of_lt hi, Nat.mod_eq_of_lt hj] at hmod
  exact hmod

/-- C2: in rotation mode with a non-empty duplicate-free candidate list,
positive quota and positive cycle period, every invocation fetches at most
`q` identifiers, the slice at time `t` is the block of `sliceSize` candidates
at offset `(t / P) mod pages`, and over `pages` invocations spaced one period
apart the slices are pairwise disjoint and their union is the whole list. -/
theorem c2_rotation_coverage (cand : List String) (q P t : ℕ)
    (hnd : cand.Nodup) (hq : 0 < q) (hP : 0 < P) (htot : 0 < cand.length) :
    ((rotation_slice cand q P t).length ≤ q) ∧
    (rotation_slice cand q P t =
      (cand.drop ((t / P % ((cand.length + min q cand.length - 1) / min q cand.length)) *
        min q cand.length)).take (min q cand.length)) ∧
    (∀ x, x ∈ cand ↔ ∃ i, i < (cand.length + min q cand.length - 1) / min q cand.length ∧
      x ∈ rotation_slice cand q P (t + i * P)) ∧
    (∀ i j, i < (cand.length + min q cand.length - 1) / min q cand.length →
      j < (cand.length + min q cand.length - 1) / min q cand.length → i ≠ j →
      ∀ x, x ∈ rotation_slice cand q P (t + i * P) → x ∉ rotation_slice cand q P (t + j * P)) := by
  have hs : 0 < min q cand.length := by omega
  have hkey := Nat.div_add_mod (cand.length + min q cand.length - 1) (min q cand.length)
  have hmodlt : (cand.length + min q cand.length - 1) % min q cand.length < min q cand.length :=
    Nat.mod_lt _ hs
  have hp : 0 < (cand.length + min q cand.length - 1) / min q cand.length :=
    Nat.div_pos (by omega) hs
  have hlenle : cand.length ≤
      ((cand.length + min q cand.length - 1) / min q cand.length) * min q cand.length := by
    have h1 : min q cand.length *
        ((cand.length + min q cand.length - 1) / min q cand.length) =
        ((cand.length + min q cand.length - 1) / min q cand.length) * min q cand.length := by ring
    rw [← h1]
    omega
  refine ⟨?_, rotation_slice_eq cand q P t (by omega), ?_, ?_⟩
  · rw [rotation_slice_eq cand q P t (by omega)]
    have := List.length_take (min q cand.length)
      (cand.drop ((t / P % ((cand.length + min q cand.length - 1) / min q cand.length)) *
        min q cand.length))
    omega
  · intro x
    rw [cover_by_offsets (min q cand.length)
      ((cand.length + min q cand.length - 1) / min q cand.length) cand hlenle x]
    constructor
    · rintro ⟨o, ho, hx⟩
      refine ⟨(o + (cand.length + min q cand.length - 1) / min q cand.length -
          t / P % ((cand.length + min q cand.length - 1) / min q cand.length)) %
          ((cand.length + min q cand.length - 1) / min q cand.length), Nat.mod_lt _ hp, ?_⟩
      rw [rotation_slice_eq cand q P _ (by omega), offset_shift _ _ _ _ hP]
      have hoeq : (t / P + (o + (cand.length + min q cand.length - 1) / min q cand.length -
          t / P % ((cand.length + min q cand.length - 1) / min q cand.length)) %
          ((cand.length + min q cand.length - 1) / min q cand.length)) %
          ((cand.length + min q cand.length - 1) / min q cand.length) = o := by
        rw [Nat.add_mod_mod, ← Nat.mod_add_mod]
        rw [show t / P % ((cand.length + min q cand.length - 1) / min q cand.length) +
            (o + (cand.length + min q cand.length - 1) / min q cand.length -
              t / P % ((cand.length + min q cand.length - 1) / min q cand.length)) =
            o + (cand.length + min q cand.length - 1) / min q cand.length from by
          have := Nat.mod_lt (t / P) hp
          omega]
        rw [Nat.add_mod_right]
        exact Nat.mod_eq_of_lt ho
      rw [hoeq]
      exact hx
    · rintro ⟨i, hi, hx⟩
      rw [rotation_slice_eq cand q P _ (by omega), offset_shift _ _ _ _ hP] at hx
      exact ⟨(t / P + i) % ((cand.length + min q cand.length - 1) / min q cand.length),
        Nat.mod_lt _ hp, hx⟩
  · intro i j hi hj hij x hx
    rw [rotation_slice_eq cand q P _ (by omega), offset_shift _ _ _ _ hP] at hx
    rw [rotation_slice_eq cand q P _ (by omega), offset_shift _ _ _ _ hP]
    apply slices_disjoint cand hnd (min q cand.length) _ _ ?_ x hx
    intro hoeq
    exact hij (offset_inj (t / P) _ i j hi hj hoeq)

/-- Witness for C2 at a concrete input. -/
theorem c2_rotation_coverage_witness :
    (["a", "b", "c"] : List String).Nodup ∧ 0 < 2 ∧ 0 < 60 ∧ 0 < (["a", "b", "c"] : List String).length ∧
    ((rotation_slice ["a", "b", "c"] 2 60 0).length ≤ 2) ∧
    (∀ x, x ∈ (["a", "b", "c"] : List String) ↔
      ∃ i, i < ((["a", "b", "c"] : List String).length +
          min 2 (["a", "b", "c"] : List String).length - 1) /
          min 2 (["a", "b", "c"] : List String).length ∧
        x ∈ rotation_slice ["a", "b", "c"] 2 60 (0 + i * 60)) := by
  have h := c2_rotation_coverage ["a", "b", "c"] 2 60 0 (by decide) (by decide) (by decide)
    (by decide)
  exact ⟨by decide, by decide, by decide, by decide, h.1, h.2.2.1⟩

/-! ### C7: the assembled chain -/

lemma mem_keys_foldl_chainStep (quotes : QuoteMap) :
    ∀ (rows : List Row) (m : List (ℚ × (Option LegInfo × Option LegInfo))) (k : ℚ),
      k ∈ ((rows.foldl (chainStep quotes) m).map Prod.fst) ↔
        k ∈ m.map Prod.fst ∨ ∃ r ∈ rows, asmStrike r = some k := by
  intro rows
  induction rows with
  | nil => intro m k; simp
  | cons r rest ih =>
      intro m k
      show k ∈ ((rest.foldl (chainStep quotes) (chainStep quotes m r)).map Prod.fst) ↔ _
      rw [ih (chainStep quotes m r) k]
      cases hs : asmStrike r with
      | none =>
          simp only [chainStep, hs]
          constructor
          · rintro (h | h)
            · exact Or.inl h
            · obtain ⟨r2, hr2, hk2⟩ := h
              exact Or.inr ⟨r2, List.mem_cons_of_mem _ hr2, hk2⟩
          · rintro (h | ⟨r2, hr2, hk2⟩)
            · exact Or.inl h
            · rcases List.mem_cons.mp hr2 with he | he
              · subst he; rw [hk2] at hs; cases hs
              · exact Or.inr ⟨r2, he, hk2⟩
      | some s =>
          simp only [chainStep, hs, mem_map_fst_assocUpd]
          constructor
          · rintro ((h | h) | h)
            · exact Or.inl h
            · exact Or.inr ⟨r, List.mem_cons_self _ _, by rw [hs, h]⟩
            · obtain ⟨r2, hr2, hk2⟩ := h
              exact Or.inr ⟨r2, List.mem_cons_of_mem _ hr2, hk2⟩
          · rintro (h | ⟨r2, hr2, hk2⟩)
            · exact Or.inl (Or.inl h)
            · rcases List.mem_cons.mp hr2 with he | he
              · subst he
                rw [hk2] at hs
                cases hs
                exact Or.inl (Or.inr rfl)
              · exact Or.inr ⟨r2, he, hk2⟩

lemma nodup_keys_foldl_chainStep (quotes : QuoteMap) :
    ∀ (rows : List Row) (m : List (ℚ × (Option LegInfo × Option LegInfo))),
      (m.map Prod.fst).Nodup → ((rows.foldl (chainStep quotes) m).map Prod.fst).Nodup := by
  intro rows
  induction rows with
  | nil => intro m h; exact h
  | cons r rest ih =>
      intro m h
      apply ih
      cases hs : asmStrike r with
      | none => simpa [chainStep, hs] using h
      | some s =>
          simp only [chainStep, hs]
          exact nodup_map_fst_assocUpd _ _ _ m h

lemma chainMap_keys_nodup (quotes : QuoteMap) (rows : List Row) :
    ((chainMap quotes rows).map Prod.fst).Nodup :=
  nodup_keys_foldl_chainStep quotes rows [] List.nodup_nil

lemma mem_chainMap_keys (quotes : QuoteMap) (rows : List Row) (k : ℚ) :
    k ∈ (chainMap quotes rows).map Prod.fst ↔ ∃ r ∈ rows, asmStrike r = some k := by
  rw [chainMap, mem_keys_foldl_chainStep quotes rows [] k]
  simp

lemma build_strikes (rows : List Row) (quotes : QuoteMap) :
    (build_option_chain_from_instruments rows quotes).map ChainRec.strike =
      List.insertionSort (fun a b => a ≤ b) ((chainMap quotes rows).map Prod.fst) := by
  unfold build_option_chain_from_instruments
  rw [List.map_map]
  exact List.map_id'' (fun x => rfl) _

/-- C7 (amended): the assembled chain is sorted by strictly ascending strike
with no duplicate strikes, its strikes are exactly the resolvable strikes of
the input rows, and call and put rows at the same numeric strike merge into a
single entry; a strike whose rows all lack a recognizable side is NOT
excluded, it appears with both legs unset. -/
theorem c7_chain_assembly (rows : List Row) (quotes : QuoteMap) :
    (List.Sorted (· < ·) ((build_option_chain_from_instruments rows quotes).map ChainRec.strike)) ∧
    (∀ s : ℚ, s ∈ (build_option_chain_from_instruments rows quotes).map ChainRec.strike ↔
      ∃ r ∈ rows, asmStrike r = some s) ∧
    (build_option_chain_from_instruments [exCe100, exPe100] [] =
      [{ strike := 100,
         ce := some { instrument_key := some "K", trading_symbol := "x ce",
                      ltp := PyVal.vnone, oi := PyVal.vnone, iv := PyVal.vnone },
         pe := some { instrument_key := some "P", trading_symbol := "x pe",
                      ltp := PyVal.vnone, oi := PyVal.vnone, iv := PyVal.vnone } }]) ∧
    (build_option_chain_from_instruments [exRowSideless] [] =
      [{ strike := 100, ce := none, pe := none }]) := by
  refine ⟨?_, ?_, by with_unfolding_all decide, by with_unfolding_all decide⟩
  · rw [build_strikes]
    have hsorted : (List.insertionSort (fun a b => a ≤ b)
        ((chainMap quotes rows).map Prod.fst)).Sorted (fun a b => a ≤ b) :=
      List.sorted_insertionSort _ _
    have hnodup : (List.insertionSort (fun a b => a ≤ b)
        ((chainMap quotes rows).map Prod.fst)).Nodup :=
      (List.perm_insertionSort _ _).nodup_iff.mpr (chainMap_keys_nodup quotes rows)
    exact hsorted.lt_of_le hnodup
  · intro s
    rw [build_strikes, (List.perm_insertionSort _ _).mem_iff, mem_chainMap_keys]

/-- Counterexample to C7 as stated: a row with a resolvable strike but no
recognizable side produces an entry with neither leg resolved, which is not
excluded from the output. -/
theorem c7_counterexample :
    build_option_chain_from_instruments [exRowSideless] [] =
      [{ strike := 100, ce := none, pe := none }] ∧
    (∃ e ∈ build_option_chain_from_instruments [exRowSideless] [],
      e.ce = none ∧ e.pe = none) := by
  with_unfolding_all decide

/-! ### C6: alias extraction -/

lemma build_single_quote (q : Quote) :
    build_option_chain_from_instruments [exCe100] [("K", q)] =
      [{ strike := 100,
         ce := some { instrument_key := some "K", trading_symbol := "x ce",
                      ltp := extractLtp q, oi := extractOi q, iv := extractIv q },
         pe := none }] := by
  with_unfolding_all rfl

/-- Counterexample to C6 as stated: the extractor takes the first truthy
value, not the first present non-null one, so a present last price of 0 under
the first alias is skipped in favor of a later alias, and payloads carrying 0
under different aliases assemble to different entries. -/
theorem c6_counterexample :
    ((build_option_chain_from_instruments [exCe100]
        [("K", { last_traded_price := PyVal.vnum 0, ltp := PyVal.vnum 5 })]).map
      (fun e => e.ce.map (fun i => i.ltp)) = [some (PyVal.vnum 5)]) ∧
    (firstNonNull [PyVal.vnum 0, PyVal.vnum 5, PyVal.vnone] = PyVal.vnum 0) ∧
    (PyVal.vnum 5 ≠ PyVal.vnum 0) ∧
    (build_option_chain_from_instruments [exCe100] [("K", { last_traded_price := PyVal.vnum 0 })] ≠
      build_option_chain_from_instruments [exCe100] [("K", { lastPrice := PyVal.vnum 0 })]) := by
  with_unfolding_all decide

/-- C6 (amended): for a truthy value, each logical field is extracted by
trying its aliases in the fixed priority order, and a payload carrying the
value under any single recognized alias assembles to the same entry as under
any other alias. -/
theorem c6_alias_extraction (v : PyVal) (hv : pyTruthy v = true) :
    (extractLtp { last_traded_price := v } = v ∧ extractLtp { ltp := v } = v ∧
      extractLtp { lastPrice := v } = v) ∧
    (extractOi { open_interest := v } = v ∧ extractOi { oi := v } = v ∧
      extractOi { openInterest := v } = v) ∧
    (extractIv { iv := v } = v ∧ extractIv { implied_volatility := v } = v ∧
      extractIv { IV := v } = v) ∧
    (build_option_chain_from_instruments [exCe100] [("K", { last_traded_price := v })] =
      build_option_chain_from_instruments [exCe100] [("K", { ltp := v })] ∧
     build_option_chain_from_instruments [exCe100] [("K", { ltp := v })] =
      build_option_chain_from_instruments [exCe100] [("K", { lastPrice := v })]) := by
  have hvn : pyTruthy PyVal.vnone = false := rfl
  have h1 : extractLtp { last_traded_price := v } = v := by
    simp [extractLtp, pyOrV, hv, hvn]
  have h2 : extractLtp { ltp := v } = v := by
    simp [extractLtp, pyOrV, hv, hvn]
  have h3 : extractLtp { lastPrice := v } = v := by
    simp [extractLtp, pyOrV, hv, hvn]
  refine ⟨⟨h1, h2, h3⟩, ⟨?_, ?_, ?_⟩, ⟨?_, ?_, ?_⟩, ?_, ?_⟩
  · simp [extractOi, pyOrV, hv, hvn]
  · simp [extractOi, pyOrV, hv, hvn]
  · simp [extractOi, pyOrV, hv, hvn]
  · simp [extractIv, pyOrV, hv, hvn]
  · simp [extractIv, pyOrV, hv, hvn]
  · simp [extractIv, pyOrV, hv, hvn]
  · rw [build_single_quote, build_single_quote, h1, h2,
      show extractOi { last_traded_price := v } = PyVal.vnone from rfl,
      show extractOi { ltp := v } = PyVal.vnone from rfl,
      show extractIv { last_traded_price := v } = PyVal.vnone from rfl,
      show extractIv { ltp := v } = PyVal.vnone from rfl]
  · rw [build_single_quote, build_single_quote, h2, h3,
      show extractOi { ltp := v } = PyVal.vnone from rfl,
      show extractOi { lastPrice := v } = PyVal.vnone from rfl,
      show extractIv { ltp := v } = PyVal.vnone from rfl,
      show extractIv { lastPrice := v } = PyVal.vnone from rfl]

/-- Witness for C6 (amended) at a concrete truthy value. -/
theorem c6_alias_extraction_witness :
    (pyTruthy (PyVal.vnum 1) = true) ∧
    ((extractLtp { last_traded_price := PyVal.vnum 1 } = PyVal.vnum 1 ∧
      extractLtp { ltp := PyVal.vnum 1 } = PyVal.vnum 1 ∧
      extractLtp { lastPrice := PyVal.vnum 1 } = PyVal.vnum 1) ∧
    (extractOi { open_interest := PyVal.vnum 1 } = PyVal.vnum 1 ∧
      extractOi { oi := PyVal.vnum 1 } = PyVal.vnum 1 ∧
      extractOi { openInterest := PyVal.vnum 1 } = PyVal.vnum 1) ∧
    (extractIv { iv := PyVal.vnum 1 } = PyVal.vnum 1 ∧
      extractIv { implied_volatility := PyVal.vnum 1 } = PyVal.vnum 1 ∧
      extractIv { IV := PyVal.vnum 1 } = PyVal.vnum 1) ∧
    (build_option_chain_from_instruments [exCe100] [("K", { last_traded_price := PyVal.vnum 1 })] =
      build_option_chain_from_instruments [exCe100] [("K", { ltp := PyVal.vnum 1 })] ∧
     build_option_chain_from_instruments [exCe100] [("K", { ltp := PyVal.vnum 1 })] =
      build_option_chain_from_instruments [exCe100] [("K", { lastPrice := PyVal.vnum 1 })])) :=
  ⟨by decide, c6_alias_extraction (PyVal.vnum 1) (by decide)⟩

end OptPoll
